import Mathlib

/-!
Verification of the fuel-receipt sorter (`backend/sort_fuel_receipts_ocr.py`).

The module's pure core is shallowly embedded here over `List Char`:

* `is_text_garbled`    — the garbling detector (lines 33–54);
* `extract_vehicle_vin` — the five-strategy identifier extractor (lines 91–168),
  with each regular expression hand-compiled to an executable matcher whose
  comments record the backtracking analysis that justifies the determinized
  form;
* `extract_last_4_digits` — the digit normalizer (lines 171–200);
* `sortPdfByVehicle`   — the document pipeline (lines 234–305): OCR-policy
  decision, per-page extraction with per-page exception handling, bucketing
  into an insertion-ordered association list (Python `defaultdict`), and
  group-then-flatten ordering.

File I/O, the PDF parsing library, image rasterization and the Lambda/S3 glue
are external collaborators; they are represented by a `DocEnv` record giving
the per-page native-extraction outcome (text, or a raised exception), the OCR
engine's per-page output, and the OCR-availability flag.  Python `str` is
modelled as `List Char` restricted to the ASCII behaviour exercised by the
program; exact rational arithmetic stands in for the one float division.
-/

/-- A Python string, modelled as a list of characters. -/
abbrev Str := List Char

/-- Whitespace as recognised by Python's `str.strip`, `str.isspace` and the
regex class `\s` (ASCII range). -/
def isPySpace (c : Char) : Bool :=
  c = ' ' || c = '\t' || c = '\n' || c = '\r' || c = '\x0b' || c = '\x0c'

/-- The regex class `\d` (ASCII digits, as produced by the receipts). -/
def isDigitC (c : Char) : Bool := '0' ≤ c && c ≤ '9'

/-- The regex class `[A-Z]`. -/
def isUpperC (c : Char) : Bool := 'A' ≤ c && c ≤ 'Z'

/-- The regex class `[a-z]`. -/
def isLowerC (c : Char) : Bool := 'a' ≤ c && c ≤ 'z'

/-- An ASCII letter: `[A-Za-z]`, and also `[A-Z]` or `[a-z]` under
`re.IGNORECASE`. -/
def isAlphaC (c : Char) : Bool := isUpperC c || isLowerC c

/-- Python `str.strip()`: remove leading and trailing whitespace. -/
def pyStrip (s : Str) : Str :=
  (((s.dropWhile isPySpace).reverse).dropWhile isPySpace).reverse

/-- Python `text.split('\n')`: split on every newline, keeping empty pieces. -/
def splitLines : Str → List Str
  | [] => [[]]
  | c :: cs =>
    if c = '\n' then [] :: splitLines cs
    else
      match splitLines cs with
      | l :: ls => (c :: l) :: ls
      | [] => [[c]]

/-- ASCII lower-casing, used to model `re.IGNORECASE` literal matching. -/
def lowerC (c : Char) : Char :=
  if isUpperC c then Char.ofNat (c.toNat + 32) else c

/-- Case-insensitive "is `pat` a prefix of `s`" (ASCII). -/
def isPrefixCI (pat s : Str) : Bool :=
  (pat.map lowerC).isPrefixOf (s.map lowerC)

/-- Python substring containment (`pat in s`). -/
def strContains (s pat : Str) : Bool :=
  match s with
  | [] => pat.isPrefixOf []
  | c :: rest => pat.isPrefixOf (c :: rest) || strContains rest pat

/-! ## Digit normalizer (`extract_last_4_digits`, lines 171–200) -/

/-- Worker for `re.findall(r'\d+', s)`: `cur` is the pending (reversed) digit
run. Returns the list of maximal digit runs in order. -/
def digitRunsAux : Str → Str → List Str
  | [], cur => if cur = [] then [] else [cur.reverse]
  | c :: cs, cur =>
    if isDigitC c then digitRunsAux cs (c :: cur)
    else if cur = [] then digitRunsAux cs []
    else cur.reverse :: digitRunsAux cs []

/-- `re.findall(r'\d+', s)`: all maximal digit runs of `s`, in order. -/
def digitRuns (s : Str) : List Str := digitRunsAux s []

/-- `extract_last_4_digits` (lines 171–200): take the last maximal digit run;
return it if its length is 4, its last 4 characters if longer, left-padded
with `'0'` (Python `zfill(4)`) if shorter; `"Unknown"` if there is no digit. -/
def extract_last_4_digits (vehicle_name : Str) : Str :=
  match (digitRuns vehicle_name).getLast? with
  | none => "Unknown".data
  | some last_digits =>
    if last_digits.length = 4 then last_digits
    else if last_digits.length > 4 then
      last_digits.drop (last_digits.length - 4)
    else List.replicate (4 - last_digits.length) '0' ++ last_digits

/-! ## Garbling detector (`is_text_garbled`, lines 33–54) -/

/-- Does the string start with a digit? -/
def headDigit : Str → Bool
  | [] => false
  | d :: _ => isDigitC d

/-- Does a match of `\d+|i\d+` start here (right after a `'/'`)?  Each
alternative needs at least one digit. -/
def slashTail : Str → Bool
  | [] => false
  | c :: rest => isDigitC c || (c = 'i' && headDigit rest)

/-- `re.search(r'/\d+|/i\d+', text) is not None`: somewhere a `'/'` is
followed by a digit, or by `'i'` and a digit. -/
def hasSlashCode : Str → Bool
  | [] => false
  | c :: rest => (c = '/' && slashTail rest) || hasSlashCode rest

/-- Count of characters `c` with `c.isalnum() or c.isspace()` (ASCII). -/
def readableCount (s : Str) : Nat :=
  (s.filter (fun c => c.isAlphanum || isPySpace c)).length

/-- `is_text_garbled` (lines 33–54).  The float test
`readable_chars / total_chars < 0.5` (guarded by `total_chars > 0`) is
modelled exactly over the integers as `2 * readable < total`. -/
def is_text_garbled (text : Str) : Bool :=
  hasSlashCode text ||
    (decide (0 < text.length) && decide (2 * readableCount text < text.length))

/-! ## Hand-compiled regex matchers for `extract_vehicle_vin`

Each Python `re.search` below is compiled to a deterministic function.  The
patterns only combine the pairwise-disjoint character classes `\s`, `\d`,
`[A-Za-z]` and literals, so greedy/lazy backtracking resolves to a unique
run-decomposition; each determinization step is justified in a comment.
Anchored matchers consume a prefix and return `(consumed, rest)`, so that
`group(0)` is the consumed part. -/

/-- Case-sensitive literal. -/
def eatLit (pat s : Str) : Option (Str × Str) :=
  if pat.isPrefixOf s then some (pat, s.drop pat.length) else none

/-- `\s+`: the maximal whitespace run, which must be nonempty.  In every
pattern below `\s+` is followed by a class disjoint from `\s`, so only the
maximal run can match. -/
def eatWs1 (s : Str) : Option (Str × Str) :=
  let (w, r) := s.span isPySpace
  if w = [] then none else some (w, r)

/-- `\d{4}` with no following constraint: the next four characters, which
must all be digits (a fifth digit is simply left unconsumed). -/
def eatD4 (s : Str) : Option (Str × Str) :=
  let d := s.take 4
  if d.length = 4 && d.all isDigitC then some (d, s.drop 4) else none

/-- Sequencing of prefix-matchers, concatenating the consumed parts. -/
def eatSeq (f g : Str → Option (Str × Str)) (s : Str) : Option (Str × Str) :=
  match f s with
  | none => none
  | some (a, r) =>
    match g r with
    | none => none
    | some (b, r2) => some (a ++ b, r2)

/-- First alternative of a regex alternation that matches, in written order
(Python tries alternatives left to right at each start position). -/
def eatAlt (fs : List (Str → Option (Str × Str))) (s : Str) :
    Option (Str × Str) :=
  match fs with
  | [] => none
  | f :: rest =>
    match f s with
    | some r => some r
    | none => eatAlt rest s

/-- `[A-Z][a-z]+` (case-sensitive): an upper-case letter then the maximal
nonempty lower-case run (the run is followed by `\s` in every continuation,
and `[a-z]`/`\s` are disjoint, so only the maximal run can match). -/
def capWord (s : Str) : Option (Str × Str) :=
  match s with
  | [] => none
  | c :: rest =>
    if isUpperC c then
      let (ls, r) := rest.span isLowerC
      if ls = [] then none else some (c :: ls, r)
    else none

/-- A single character from a class (used for `[lI]`, `[dD]`, `[#H]` under
IGNORECASE). -/
def eatCls (p : Char → Bool) (s : Str) : Option Str :=
  match s with
  | c :: rest => if p c then some rest else none
  | [] => none

/-- Case-insensitive literal prefix. -/
def eatLitCI (pat s : Str) : Option Str :=
  if isPrefixCI pat s then some (s.drop pat.length) else none

/-- Anchored match of `\s+(\d{4})\s+(?:diesel|gas|gasoline)` (IGNORECASE) as a
prefix of `s`, returning the captured 4-digit group.  `\s+` is greedy but
`\s`/`\d` are disjoint, so only the maximal whitespace run can precede the
digits; `(\d{4})\s+` forces exactly four digits followed by whitespace (on a
fifth digit the second `eatWs1` fails, as backtracking would). -/
def wsD4Fuel (s : Str) : Option Str :=
  match eatWs1 s with
  | none => none
  | some (_, r1) =>
    match eatD4 r1 with
    | none => none
    | some (d, r2) =>
      match eatWs1 r2 with
      | none => none
      | some (_, r3) =>
        if isPrefixCI "diesel".data r3 || isPrefixCI "gas".data r3 ||
            isPrefixCI "gasoline".data r3 then some d
        else none

/-- `re.search(r'(.+?)\s+(\d{4})\s+(?:diesel|gas|gasoline)', s, IGNORECASE)`
(line 113), returning `(group 1, group 2)`.  `.` matches every character
except `'\n'`, so within a newline-free segment a match starting anywhere
extends to a match starting at the segment start; leftmost-then-lazy search
therefore returns the shortest `group 1` beginning at the current segment
start.  `acc` accumulates the candidate `group 1`; a newline resets it. -/
def r1SearchAux (acc : Str) : Str → Option (Str × Str)
  | [] => none
  | c :: rest =>
    if c = '\n' then r1SearchAux [] rest
    else
      let acc2 := acc ++ [c]
      match wsD4Fuel rest with
      | some d => some (acc2, d)
      | none => r1SearchAux acc2 rest

/-- Search wrapper for the strategy-1 line regex. -/
def r1Search (s : Str) : Option (Str × Str) := r1SearchAux [] s

/-- Strategy 1 (lines 107–117) applied to one line: the stripped line must
contain both `"Vehicle"` and `"Fuel Type"` (Python `in`, i.e. substring), and
the previous raw line (`prev?`, absent for the first line) is stripped and
matched against the strategy-1 regex.  On success the result is
`(group 2, group1.strip() ++ " " ++ group 2)`. -/
def m1 (prev? : Option Str) (line : Str) : Option (Str × Str) :=
  let sl := pyStrip line
  if strContains sl "Vehicle".data && strContains sl "Fuel Type".data then
    match prev? with
    | some p =>
      match r1Search (pyStrip p) with
      | some (g1, d4) => some (d4, pyStrip g1 ++ ' ' :: d4)
      | none => none
    | none => none
  else none

/-- Strategy 2 (lines 119–129) applied to one line: the stripped line must
equal `"Vehicle"`; the previous line, stripped, is the vehicle name, which
must be nonempty (the code also excludes the unreachable literal `" "`), and
its digit normalization must succeed. -/
def m2 (prev? : Option Str) (line : Str) : Option (Str × Str) :=
  if pyStrip line = "Vehicle".data then
    match prev? with
    | some p =>
      let name := pyStrip p
      if name ≠ [] && name ≠ [' '] then
        let v := extract_last_4_digits name
        if v ≠ "Unknown".data then some (v, name) else none
      else none
    | none => none
  else none

/-- The `for i, line in enumerate(lines)` loop of lines 104–129: at each line,
strategy 1 is tried first, then strategy 2; the first success returns.
`prev?` carries the previous raw line (`none` at index 0). -/
def scanAux (prev? : Option Str) : List Str → Option (Str × Str)
  | [] => none
  | l :: rest =>
    match m1 prev? l with
    | some r => some r
    | none =>
      match m2 prev? l with
      | some r => some r
      | none => scanAux (some l) rest

/-- Strategy 1 outcome at line index `i` (with `prev?` the line before the
current window, `none` initially): used to state claims about the loop. -/
def m1At (prev? : Option Str) : List Str → Nat → Option (Str × Str)
  | [], _ => none
  | l :: _, 0 => m1 prev? l
  | l :: rest, i + 1 => m1At (some l) rest i

/-- Strategy 2 outcome at line index `i`, analogous to `m1At`. -/
def m2At (prev? : Option Str) : List Str → Nat → Option (Str × Str)
  | [], _ => none
  | l :: _, 0 => m2 prev? l
  | l :: rest, i + 1 => m2At (some l) rest i

/-- Body scan for strategy 3's
`([A-Z][A-Za-z\s]+?)\s+(\d{4})\s+(?:diesel|gas|gasoline)` (IGNORECASE, line
133–134): `c0` is the leading letter, `acc` the lazy body
(`[A-Za-z\s]+?`, at least one character) accumulated so far.  Lazy growth
stops at the first body length whose remainder matches the anchored tail. -/
def anyTextGo (c0 : Char) (acc : Str) : Str → Option (Str × Str)
  | [] => none
  | c :: rest =>
    if isAlphaC c || isPySpace c then
      let acc2 := acc ++ [c]
      match wsD4Fuel rest with
      | some d4 => some (c0 :: acc2, d4)
      | none => anyTextGo c0 acc2 rest
    else none

/-- Leftmost search for strategy 3 over the whole page text: try each start
position (which must be a letter, `[A-Z]` under IGNORECASE) left to right. -/
def anyTextSearch : Str → Option (Str × Str)
  | [] => none
  | c :: rest =>
    if isAlphaC c then
      match anyTextGo c [] rest with
      | some r => some r
      | none => anyTextSearch rest
    else anyTextSearch rest

/-! ### Strategy 4: the two `vehicle_patterns` (lines 141–152) -/

/-- The fixed fleet-vocabulary alternation of the first `vehicle_patterns`
entry: `Stealth|Bus|Apollo|Colt|Ford|Outlaw|Renegade|Bases\s+Loaded|
Slow\s+Motion|Viper|Zeus` (case-sensitive). -/
def vocabAlt (s : Str) : Option (Str × Str) :=
  eatAlt
    [eatLit "Stealth".data, eatLit "Bus".data, eatLit "Apollo".data,
     eatLit "Colt".data, eatLit "Ford".data, eatLit "Outlaw".data,
     eatLit "Renegade".data,
     eatSeq (eatLit "Bases".data) (eatSeq eatWs1 (eatLit "Loaded".data)),
     eatSeq (eatLit "Slow".data) (eatSeq eatWs1 (eatLit "Motion".data)),
     eatLit "Viper".data, eatLit "Zeus".data] s

/-- Anchored attempt of pattern `(?:…vocabulary…)\s+\d{4}` (line 142). -/
def p3aAt (s : Str) : Option (Str × Str) :=
  eatSeq vocabAlt (eatSeq eatWs1 eatD4) s

/-- Greedy `(?:\s+[A-Z][a-z]+)*`: iterate `\s+[A-Z][a-z]+` as long as it
matches.  Backtracking to fewer iterations never helps: after a backtracked
iteration the remainder starts with a whitespace run followed by `[A-Z]`, on
which the continuation `\s+\d{4}` fails, so the maximal iteration count is
the only candidate. -/
def starWsCap (s : Str) : Str × Str :=
  match h : eatSeq eatWs1 capWord s with
  | none => ([], s)
  | some (a, r) =>
    let p := starWsCap r
    (a ++ p.1, p.2)
termination_by s.length
decreasing_by
  unfold eatSeq at h
  cases hw : eatWs1 s with
  | none => rw [hw] at h; exact absurd h (by simp)
  | some p =>
    obtain ⟨w, r1⟩ := p
    rw [hw] at h
    simp only at h
    cases hc : capWord r1 with
    | none => rw [hc] at h; exact absurd h (by simp)
    | some q =>
      obtain ⟨b, r2⟩ := q
      rw [hc] at h
      simp only [Option.some.injEq, Prod.mk.injEq] at h
      obtain ⟨-, hr⟩ := h
      have hws : s = w ++ r1 ∧ w ≠ [] := by
        unfold eatWs1 at hw
        rw [List.span_eq_take_drop] at hw
        simp only at hw
        by_cases hw0 : s.takeWhile isPySpace = []
        · rw [if_pos hw0] at hw; exact absurd hw (by simp)
        · rw [if_neg hw0] at hw
          simp only [Option.some.injEq, Prod.mk.injEq] at hw
          obtain ⟨h1, h2⟩ := hw
          subst h1 h2
          exact ⟨(List.takeWhile_append_dropWhile
            (p := isPySpace) (l := s)).symm, hw0⟩
      have hcw : r1 = b ++ r2 := by
        unfold capWord at hc
        cases r1 with
        | nil => simp at hc
        | cons c rest =>
          simp only at hc
          by_cases hcu : isUpperC c = true
          · rw [if_pos hcu, List.span_eq_take_drop] at hc
            simp only at hc
            by_cases hl : rest.takeWhile isLowerC = []
            · rw [if_pos hl] at hc; exact absurd hc (by simp)
            · rw [if_neg hl] at hc
              simp only [Option.some.injEq, Prod.mk.injEq] at hc
              obtain ⟨h1, h2⟩ := hc
              subst h1 h2
              simp [List.takeWhile_append_dropWhile]
          · rw [if_neg hcu] at hc; exact absurd hc (by simp)
      obtain ⟨hs, hne⟩ := hws
      subst hr hs hcw
      have : 0 < w.length := List.length_pos.mpr hne
      simp only [List.length_append]
      omega

/-- Anchored attempt of pattern `[A-Z][a-z]+(?:\s+[A-Z][a-z]+)*\s+\d{4}`
(line 143). -/
def p3bAt (s : Str) : Option (Str × Str) :=
  match capWord s with
  | none => none
  | some (w0, r0) =>
    let (st, r1) := starWsCap r0
    match eatSeq eatWs1 eatD4 r1 with
    | none => none
    | some (t, r2) => some (w0 ++ st ++ t, r2)

/-- `re.search`: try the anchored matcher at each start position, left to
right (the payload is the match data — `group(0)` and rest, or a captured
group). -/
def reSearch {α : Type} (f : Str → Option α) : Str → Option α
  | [] => f []
  | s@(_ :: rest) =>
    match f s with
    | some r => some r
    | none => reSearch f rest

/-- One iteration of the strategy-4 loop (lines 146–152): on a match, strip
`group(0)`, normalize its digits, and accept only if normalization succeeds
(otherwise the loop falls through to the next pattern). -/
def tryPattern3 (pat : Str → Option (Str × Str)) (text : Str) :
    Option (Str × Str) :=
  match reSearch pat text with
  | some (g0, _) =>
    let name := pyStrip g0
    let v := extract_last_4_digits name
    if v ≠ "Unknown".data then some (v, name) else none
  | none => none

/-- Strategy 4 (lines 140–152): the two `vehicle_patterns` in order. -/
def method3 (text : Str) : Option (Str × Str) :=
  match tryPattern3 p3aAt text with
  | some r => some r
  | none => tryPattern3 p3bAt text

/-! ### Strategy 5: the three `bottom_vin_patterns` (lines 156–166) -/

/-- Anchored tail `\s+[a-z]*\s*(\d{4})` (IGNORECASE) of the first two footer
patterns, returning the captured group.  `\s`, letters and `\d` are pairwise
disjoint, so the three runs are forced to be maximal and the greedy path is
the only viable one. -/
def p4Tail (s : Str) : Option Str :=
  match eatWs1 s with
  | none => none
  | some (_, r1) =>
    let (_, r2) := r1.span isAlphaC
    let (_, r3) := r2.span isPySpace
    match eatD4 r3 with
    | some (d, _) => some d
    | none => none

/-- Anchored attempt of `venicle[lI][dD]\s+[a-z]*\s*(\d{4})` (line 157,
IGNORECASE), returning the captured group. -/
def p4aAt (s : Str) : Option Str :=
  match eatLitCI "venicle".data s with
  | none => none
  | some r1 =>
    match eatCls (fun c => c = 'l' || c = 'L' || c = 'i' || c = 'I') r1 with
    | none => none
    | some r2 =>
      match eatCls (fun c => c = 'd' || c = 'D') r2 with
      | none => none
      | some r3 => p4Tail r3

/-- Anchored attempt of `vehicle[lI][dD]\s+[a-z]*\s*(\d{4})` (line 158). -/
def p4bAt (s : Str) : Option Str :=
  match eatLitCI "vehicle".data s with
  | none => none
  | some r1 =>
    match eatCls (fun c => c = 'l' || c = 'L' || c = 'i' || c = 'I') r1 with
    | none => none
    | some r2 =>
      match eatCls (fun c => c = 'd' || c = 'D') r2 with
      | none => none
      | some r3 => p4Tail r3

/-- Anchored tail `\d+\s*(\d{4})` of the invoice pattern.  With `run1` the
maximal leading digit run (`\d+` requires it nonempty): the greedy path takes
all of `run1`, the maximal whitespace run, then four digits; if that fails,
backtracking shortens `\d+` — every intermediate length fails (a digit sits
where `\d{4}` would need its fourth-next character to leave the run) until
`\d+` gives up exactly four digits, which succeeds iff `run1` has length at
least 5 and captures the last four digits of `run1`. -/
def p4cTail (s : Str) : Option Str :=
  let (run1, r1) := s.span isDigitC
  if run1 = [] then none
  else
    let (_, r2) := r1.span isPySpace
    match eatD4 r2 with
    | some (d, _) => some d
    | none =>
      if 5 ≤ run1.length then some (run1.drop (run1.length - 4)) else none

/-- Anchored attempt of `INVOICE[#H]\s+\d+\s*(\d{4})` (line 159,
IGNORECASE), returning the captured group. -/
def p4cAt (s : Str) : Option Str :=
  match eatLitCI "INVOICE".data s with
  | none => none
  | some r1 =>
    match eatCls (fun c => c = '#' || c = 'H' || c = 'h') r1 with
    | none => none
    | some r2 =>
      match eatWs1 r2 with
      | none => none
      | some (_, r3) => p4cTail r3

/-- Strategy 5 (lines 154–166): the three footer patterns in order; on the
first match, key = captured group, label = `"Vehicle " ++ key`. -/
def method4 (text : Str) : Option (Str × Str) :=
  match reSearch p4aAt text with
  | some d4 => some (d4, "Vehicle ".data ++ d4)
  | none =>
    match reSearch p4bAt text with
    | some d4 => some (d4, "Vehicle ".data ++ d4)
    | none =>
      match reSearch p4cAt text with
      | some d4 => some (d4, "Vehicle ".data ++ d4)
      | none => none

/-- `extract_vehicle_vin` (lines 91–168): the line loop (strategies 1 and 2),
then the anywhere-in-text pattern, the vocabulary patterns, the footer
patterns, and finally `("Unknown", "Unknown")`. -/
def extract_vehicle_vin (page_text : Str) : Str × Str :=
  match scanAux none (splitLines page_text) with
  | some r => r
  | none =>
    match anyTextSearch page_text with
    | some (g1, d4) => (d4, pyStrip g1 ++ ' ' :: d4)
    | none =>
      match method3 page_text with
      | some r => r
      | none =>
        match method4 page_text with
        | some r => r
        | none => ("Unknown".data, "Unknown".data)

/-! ## Grouping & ordering pipeline (`sort_pdf_by_vehicle`, lines 203–315)

File-system checks, `PdfReader` construction and the final `PdfWriter` write
(lines 212–232 and 307–315) are I/O glue around the core; the embedding
starts from the constructed reader.  `DocEnv` packages the external
collaborators: per-page native text extraction (which may raise), the OCR
engine's per-page output, and the module-level `OCR_AVAILABLE` flag. -/

/-- The external collaborators of one document-processing invocation. -/
structure DocEnv where
  /-- `reader.pages[i].extract_text()`: extracted text, or a raised
  exception (`Except.error`). -/
  pages : List (Except Unit Str)
  /-- The OCR engine's output for a page (`pytesseract` + `pdf2image`;
  internal failures already degraded to `""` by the `try`/`except` of lines
  71–86). -/
  ocrText : Nat → Str
  /-- The module-level `OCR_AVAILABLE` flag (lines 22–27). -/
  ocrAvailable : Bool

/-- `extract_text_with_ocr` (lines 57–88): returns `""` when OCR is
unavailable, and never raises (its body is wrapped in `try`/`except`). -/
def extract_text_with_ocr (env : DocEnv) (page_num : Nat) : Str :=
  if env.ocrAvailable then env.ocrText page_num else []

/-- The one fatal error of the modelled region: the `sys.exit(1)` of line 249
(OCR required by garbling auto-detection but unavailable). -/
inductive SortError where
  | configError
deriving DecidableEq

/-- Lines 238–251: `needs_ocr` starts as `use_ocr`; if not forced, the first
page's native text is inspected — a raised exception (including the
`IndexError` of `reader.pages[0]` on an empty document) is caught and turns
OCR on; a garbled first page turns OCR on and, when OCR is unavailable,
exits fatally (`sys.exit` raises `SystemExit`, which `except Exception`
does not catch). -/
def decideNeedsOcr (env : DocEnv) (use_ocr : Bool) : Except SortError Bool :=
  if use_ocr then .ok true
  else
    match env.pages.head? with
    | none => .ok true
    | some (.error _) => .ok true
    | some (.ok t) =>
      if is_text_garbled t then
        if env.ocrAvailable then .ok true else .error .configError
      else .ok false

/-- The per-page body of the loop at lines 261–279: pick the text source,
extract `(vin, name)`; a raised native extraction error is caught per page
and recorded as `("Unknown", "Unknown")`.  (On the OCR path no exception can
propagate, and `extract_vehicle_vin` itself is pure.) -/
def pageRecord (env : DocEnv) (needs_ocr : Bool) (page_num : Nat)
    (page : Except Unit Str) : Str × Str :=
  if needs_ocr then extract_vehicle_vin (extract_text_with_ocr env page_num)
  else
    match page with
    | .ok t => extract_vehicle_vin t
    | .error _ => ("Unknown".data, "Unknown".data)

/-- One page's contribution to `vin_pages`: key and appended value
`(page_num, vehicle_name)`. -/
def pageEntry (env : DocEnv) (needs_ocr : Bool) (p : Nat × Except Unit Str) :
    Str × (Nat × Str) :=
  let r := pageRecord env needs_ocr p.1 p.2
  (r.1, (p.1, r.2))

/-- All per-page results, in page order (`enumerate(reader.pages)`). -/
def pageRecords (env : DocEnv) (needs_ocr : Bool) :
    List (Str × (Nat × Str)) :=
  env.pages.enum.map (pageEntry env needs_ocr)

/-- `vin_pages[vin].append(v)` on an insertion-ordered association list —
the model of Python's `defaultdict(list)`: an existing key keeps its
position and grows its list; a new key is appended at the end. -/
def bucketAdd (m : List (Str × List (Nat × Str))) (k : Str)
    (v : Nat × Str) : List (Str × List (Nat × Str)) :=
  match m with
  | [] => [(k, [v])]
  | (k', vs) :: rest =>
    if k' = k then (k', vs ++ [v]) :: rest else (k', vs) :: bucketAdd rest k v

/-- Association-list lookup (Python `vin_pages[vin]` for a present key). -/
def alookup (k : Str) : List (Str × List (Nat × Str)) →
    Option (List (Nat × Str))
  | [] => none
  | (k', vs) :: rest => if k' = k then some vs else alookup k rest

/-- The filled `vin_pages` mapping after the extraction loop. -/
def bucketsOf (env : DocEnv) (needs_ocr : Bool) :
    List (Str × List (Nat × Str)) :=
  (pageRecords env needs_ocr).foldl (fun m kv => bucketAdd m kv.1 kv.2) []

/-- Lexicographic string `≤` by code point — Python string comparison. -/
def strLe : Str → Str → Bool
  | [], _ => true
  | _ :: _, [] => false
  | a :: as, b :: bs =>
    if a < b then true else if b < a then false else strLe as bs

/-- Lexicographic string `<` by code point — Python `<` on strings. -/
def strLt : Str → Str → Bool
  | _, [] => false
  | [], _ :: _ => true
  | a :: as, b :: bs =>
    if a < b then true else if b < a then false else strLt as bs

/-- `sort_key` (lines 282–286): `("Unknown" ↦ (1, "9999"), vin ↦ (0, vin))`. -/
def sort_key (vin : Str) : Nat × Str :=
  if vin = "Unknown".data then (1, "9999".data) else (0, vin)

/-- Python `≤` on the `(int, str)` tuples produced by `sort_key`. -/
def pairLe (x y : Nat × Str) : Bool :=
  decide (x.1 < y.1) || (decide (x.1 = y.1) && strLe x.2 y.2)

/-- The total preorder that `sorted(vin_pages.keys(), key=sort_key)` sorts
by. -/
def sortKeyLe (a b : Str) : Bool := pairLe (sort_key a) (sort_key b)

/-- Stable insertion into a sorted list: the new element goes after every
element `≤`-below-or-equal to it. -/
def insertLe {α : Type} (le : α → α → Bool) (x : α) : List α → List α
  | [] => [x]
  | y :: ys => if le y x then y :: insertLe le x ys else x :: y :: ys

/-- Model of Python's `sorted(l, key=…)`: a stable sort by a total preorder.
(Python uses a stable mergesort; for a total preorder every stable sort
computes the same list, so stable insertion sort is used here.) -/
def pySorted {α : Type} (le : α → α → Bool) (l : List α) : List α :=
  l.foldl (fun acc x => insertLe le x acc) []

/-- `sorted_vins` (line 288). -/
def sortedVinsOf (env : DocEnv) (needs_ocr : Bool) : List Str :=
  pySorted sortKeyLe ((bucketsOf env needs_ocr).map Prod.fst)

/-- One VIN group's page numbers, sorted ascending
(`sorted(vin_pages[vin], key=lambda x: x[0])`, line 304). -/
def groupPages (env : DocEnv) (needs_ocr : Bool) (vin : Str) : List Nat :=
  (pySorted (fun x y => decide (x.1 ≤ y.1))
    ((alookup vin (bucketsOf env needs_ocr)).getD [])).map Prod.fst

/-- The final output page order (lines 302–305): concatenation of each
group's pages in sorted-VIN order. -/
def outputOrder (env : DocEnv) (needs_ocr : Bool) : List Nat :=
  (sortedVinsOf env needs_ocr).flatMap (groupPages env needs_ocr)

/-- `sort_pdf_by_vehicle` (lines 203–315), from the constructed reader to the
order in which source pages are fed to the writer. -/
def sort_pdf_by_vehicle (env : DocEnv) (use_ocr : Bool) :
    Except SortError (List Nat) :=
  match decideNeedsOcr env use_ocr with
  | .error e => .error e
  | .ok needs_ocr => .ok (outputOrder env needs_ocr)

/-! # Verification

## Sorting infrastructure: `insertLe`/`pySorted` permute and sort -/

theorem insertLe_perm {α : Type} (le : α → α → Bool) (x : α) (l : List α) :
    (insertLe le x l).Perm (x :: l) := by
  induction l with
  | nil => exact List.Perm.refl _
  | cons y ys ih =>
    unfold insertLe
    by_cases h : le y x = true
    · rw [if_pos h]
      exact (ih.cons y).trans (List.Perm.swap x y ys)
    · rw [if_neg h]

theorem pySorted_foldl_perm {α : Type} (le : α → α → Bool) :
    ∀ (l acc : List α),
      (l.foldl (fun a x => insertLe le x a) acc).Perm (acc ++ l) := by
  intro l
  induction l with
  | nil => intro acc; simp
  | cons x xs ih =>
    intro acc
    simp only [List.foldl_cons]
    refine (ih (insertLe le x acc)).trans ?_
    refine ((insertLe_perm le x acc).append_right xs).trans ?_
    exact List.perm_middle.symm

theorem pySorted_perm {α : Type} (le : α → α → Bool) (l : List α) :
    (pySorted le l).Perm l := by
  unfold pySorted
  simpa using pySorted_foldl_perm le l []

theorem insertLe_pairwise {α : Type} {le : α → α → Bool}
    (htot : ∀ a b, le a b = true ∨ le b a = true)
    (htr : ∀ a b c, le a b = true → le b c = true → le a c = true)
    (x : α) {l : List α} (hl : l.Pairwise (fun a b => le a b = true)) :
    (insertLe le x l).Pairwise (fun a b => le a b = true) := by
  induction l with
  | nil => simp [insertLe]
  | cons y ys ih =>
    rw [List.pairwise_cons] at hl
    obtain ⟨hy, hys⟩ := hl
    unfold insertLe
    by_cases h : le y x = true
    · rw [if_pos h, List.pairwise_cons]
      refine ⟨fun z hz => ?_, ih hys⟩
      rcases List.mem_cons.mp ((insertLe_perm le x ys).mem_iff.mp hz) with
        rfl | hz'
      · exact h
      · exact hy z hz'
    · rw [if_neg h, List.pairwise_cons]
      have hxy : le x y = true := (htot x y).resolve_right h
      refine ⟨fun z hz => ?_, List.pairwise_cons.mpr ⟨hy, hys⟩⟩
      rcases List.mem_cons.mp hz with rfl | hz'
      · exact hxy
      · exact htr x y z hxy (hy z hz')

theorem pySorted_foldl_pairwise {α : Type} {le : α → α → Bool}
    (htot : ∀ a b, le a b = true ∨ le b a = true)
    (htr : ∀ a b c, le a b = true → le b c = true → le a c = true) :
    ∀ (l acc : List α), acc.Pairwise (fun a b => le a b = true) →
      (l.foldl (fun a x => insertLe le x a) acc).Pairwise
        (fun a b => le a b = true) := by
  intro l
  induction l with
  | nil => intro acc h; simpa using h
  | cons x xs ih =>
    intro acc h
    simp only [List.foldl_cons]
    exact ih _ (insertLe_pairwise htot htr x h)

theorem pySorted_pairwise {α : Type} {le : α → α → Bool}
    (htot : ∀ a b, le a b = true ∨ le b a = true)
    (htr : ∀ a b c, le a b = true → le b c = true → le a c = true)
    (l : List α) :
    (pySorted le l).Pairwise (fun a b => le a b = true) :=
  pySorted_foldl_pairwise htot htr l [] (List.Pairwise.nil)

/-! ## The `sort_key` order -/

theorem strLe_refl (a : Str) : strLe a a = true := by
  induction a with
  | nil => rfl
  | cons c cs ih =>
    unfold strLe
    rw [if_neg (lt_irrefl c), if_neg (lt_irrefl c)]
    exact ih

theorem strLe_total (a : Str) : ∀ b, strLe a b = true ∨ strLe b a = true := by
  induction a with
  | nil => intro b; left; cases b <;> rfl
  | cons c cs ih =>
    intro b
    cases b with
    | nil => right; rfl
    | cons d ds =>
      rcases lt_trichotomy c d with h | h | h
      · left; unfold strLe; rw [if_pos h]
      · subst h
        rcases ih ds with h' | h'
        · left; unfold strLe
          rw [if_neg (lt_irrefl c), if_neg (lt_irrefl c)]; exact h'
        · right; unfold strLe
          rw [if_neg (lt_irrefl c), if_neg (lt_irrefl c)]; exact h'
      · right; unfold strLe; rw [if_pos h]

theorem strLe_trans :
    ∀ a b c : Str, strLe a b = true → strLe b c = true → strLe a c = true := by
  intro a
  induction a with
  | nil => intro b c _ _; cases c <;> rfl
  | cons x xs ih =>
    intro b c h1 h2
    cases b with
    | nil => exact absurd h1 (by simp [strLe])
    | cons y ys =>
      cases c with
      | nil => exact absurd h2 (by simp [strLe])
      | cons z zs =>
        unfold strLe at h1 h2 ⊢
        rcases lt_trichotomy x y with hxy | hxy | hxy
        · rcases lt_trichotomy y z with hyz | hyz | hyz
          · rw [if_pos (lt_trans hxy hyz)]
          · subst hyz; rw [if_pos hxy]
          · rw [if_neg (lt_asymm hyz), if_pos hyz] at h2
            exact absurd h2 Bool.false_ne_true
        · subst hxy
          rw [if_neg (lt_irrefl x), if_neg (lt_irrefl x)] at h1
          rcases lt_trichotomy x z with hxz | hxz | hxz
          · rw [if_pos hxz]
          · subst hxz
            rw [if_neg (lt_irrefl x), if_neg (lt_irrefl x)] at h2 ⊢
            exact ih ys zs h1 h2
          · rw [if_neg (lt_asymm hxz), if_pos hxz] at h2
            exact absurd h2 Bool.false_ne_true
        · rw [if_neg (lt_asymm hxy), if_pos hxy] at h1
          exact absurd h1 Bool.false_ne_true

theorem strLt_iff_not_le :
    ∀ a b : Str, strLt a b = true ↔ strLe b a = false := by
  intro a
  induction a with
  | nil =>
    intro b
    cases b with
    | nil => simp [strLt, strLe]
    | cons d ds => simp [strLt, strLe]
  | cons c cs ih =>
    intro b
    cases b with
    | nil => simp [strLt, strLe]
    | cons d ds =>
      unfold strLt strLe
      rcases lt_trichotomy c d with h | h | h
      · rw [if_pos h, if_neg (lt_asymm h), if_pos h]; simp
      · subst h
        rw [if_neg (lt_irrefl c), if_neg (lt_irrefl c),
          if_neg (lt_irrefl c), if_neg (lt_irrefl c)]
        exact ih ds
      · rw [if_neg (lt_asymm h), if_pos h, if_pos h]; simp

theorem sortKeyLe_total (a b : Str) :
    sortKeyLe a b = true ∨ sortKeyLe b a = true := by
  unfold sortKeyLe sort_key pairLe
  by_cases ha : a = "Unknown".data <;> by_cases hb : b = "Unknown".data <;>
    simp [ha, hb, strLe_refl]
  exact strLe_total a b

theorem sortKeyLe_trans (a b c : Str) (h1 : sortKeyLe a b = true)
    (h2 : sortKeyLe b c = true) : sortKeyLe a c = true := by
  unfold sortKeyLe sort_key pairLe at h1 h2 ⊢
  by_cases ha : a = "Unknown".data <;> by_cases hb : b = "Unknown".data <;>
    by_cases hc : c = "Unknown".data <;>
    simp [ha, hb, hc, strLe_refl] at h1 h2 ⊢
  exact strLe_trans a b c h1 h2

theorem sortKeyLe_unknown_greatest (x : Str) :
    sortKeyLe x "Unknown".data = true := by
  unfold sortKeyLe sort_key pairLe
  by_cases hx : x = "Unknown".data <;> simp [hx, strLe_refl]

theorem sortKeyLe_unknown_elim (x : Str)
    (h : sortKeyLe "Unknown".data x = true) : x = "Unknown".data := by
  unfold sortKeyLe sort_key pairLe at h
  by_cases hx : x = "Unknown".data
  · exact hx
  · simp [hx] at h

theorem sortKeyLe_false_of_strLt {a b : Str} (ha : a ≠ "Unknown".data)
    (hb : b ≠ "Unknown".data) (h : strLt a b = true) :
    sortKeyLe b a = false := by
  unfold sortKeyLe sort_key pairLe
  rw [if_neg ha, if_neg hb]
  simpa using (strLt_iff_not_le a b).mp h

theorem strLt_ne {a b : Str} (h : strLt a b = true) : a ≠ b := by
  intro he
  subst he
  rw [strLt_iff_not_le, strLe_refl a] at h
  simp at h

/-! ## Splitting a sorted key list around two ordered members -/

theorem pairwise_mem_split {le : Str → Str → Bool} :
    ∀ {l : List Str} {A B : Str},
      l.Pairwise (fun a b => le a b = true) → A ∈ l → B ∈ l → A ≠ B →
      le B A = false → ∃ l1 l2 l3, l = l1 ++ A :: (l2 ++ B :: l3) := by
  intro l
  induction l with
  | nil => intro A B _ hA _ _ _; exact absurd hA (List.not_mem_nil A)
  | cons x xs ih =>
    intro A B hp hA hB hAB hBA
    rw [List.pairwise_cons] at hp
    obtain ⟨hx, hxs⟩ := hp
    rcases List.mem_cons.mp hA with rfl | hA'
    · rcases List.mem_cons.mp hB with hBx | hB'
      · exact absurd hBx.symm hAB
      · obtain ⟨s, t, hst⟩ := List.append_of_mem hB'
        exact ⟨[], s, t, by rw [hst]; rfl⟩
    · rcases List.mem_cons.mp hB with rfl | hB'
      · exact absurd (hx A hA') (by simp [hBA])
      · obtain ⟨l1, l2, l3, h⟩ := ih hxs hA' hB' hAB hBA
        exact ⟨x :: l1, l2, l3, by rw [h]; rfl⟩

theorem pairwise_unknown_last :
    ∀ {l : List Str},
      l.Pairwise (fun a b => sortKeyLe a b = true) → l.Nodup →
      "Unknown".data ∈ l →
      ∃ l', l = l' ++ ["Unknown".data] ∧ "Unknown".data ∉ l' := by
  intro l
  induction l with
  | nil => intro _ _ h; exact absurd h (List.not_mem_nil _)
  | cons x xs ih =>
    intro hp hnd hm
    rw [List.pairwise_cons] at hp
    obtain ⟨hx, hxs⟩ := hp
    rw [List.nodup_cons] at hnd
    obtain ⟨hnx, hnxs⟩ := hnd
    by_cases hxu : x = "Unknown".data
    · subst hxu
      have hxe : xs = [] := by
        cases hxsnil : xs with
        | nil => rfl
        | cons y ys =>
          have hy : y = "Unknown".data :=
            sortKeyLe_unknown_elim y
              (hx y (by rw [hxsnil]; exact List.mem_cons_self y ys))
          rw [hxsnil] at hnx
          exact absurd (hy ▸ List.mem_cons_self y ys) hnx
      exact ⟨[], by rw [hxe]; rfl, List.not_mem_nil _⟩
    · have hm' : "Unknown".data ∈ xs := by
        rcases List.mem_cons.mp hm with h | h
        · exact absurd h.symm hxu
        · exact h
      obtain ⟨l', h1, h2⟩ := ih hxs hnxs hm'
      refine ⟨x :: l', by rw [h1]; rfl, fun hmem => ?_⟩
      rcases List.mem_cons.mp hmem with h | h
      · exact hxu h.symm
      · exact h2 h

/-! ## The bucket structure (`defaultdict(list)`) -/

theorem bucketAdd_flat_perm (m : List (Str × List (Nat × Str))) (k : Str)
    (v : Nat × Str) :
    ((bucketAdd m k v).flatMap Prod.snd).Perm
      (m.flatMap Prod.snd ++ [v]) := by
  induction m with
  | nil => simp [bucketAdd]
  | cons kv rest ih =>
    obtain ⟨k', vs⟩ := kv
    unfold bucketAdd
    by_cases h : k' = k
    · rw [if_pos h]
      simp only [List.flatMap_cons]
      rw [List.append_assoc, List.append_assoc]
      exact List.Perm.append_left vs List.perm_append_comm
    · rw [if_neg h]
      simp only [List.flatMap_cons]
      rw [List.append_assoc]
      exact List.Perm.append_left vs ih

theorem bucketsFold_flat_perm :
    ∀ (L : List (Str × (Nat × Str))) (m0 : List (Str × List (Nat × Str))),
      ((L.foldl (fun m kv => bucketAdd m kv.1 kv.2) m0).flatMap
          Prod.snd).Perm
        (m0.flatMap Prod.snd ++ L.map Prod.snd) := by
  intro L
  induction L with
  | nil => intro m0; simp
  | cons kv L ih =>
    intro m0
    simp only [List.foldl_cons, List.map_cons]
    refine (ih (bucketAdd m0 kv.1 kv.2)).trans ?_
    refine ((bucketAdd_flat_perm m0 kv.1 kv.2).append_right _).trans ?_
    rw [List.append_assoc]
    exact List.Perm.refl _

theorem bucketAdd_keys (m : List (Str × List (Nat × Str))) (k : Str)
    (v : Nat × Str) :
    (bucketAdd m k v).map Prod.fst =
      if k ∈ m.map Prod.fst then m.map Prod.fst
      else m.map Prod.fst ++ [k] := by
  induction m with
  | nil => simp [bucketAdd]
  | cons kv rest ih =>
    obtain ⟨k', vs⟩ := kv
    unfold bucketAdd
    by_cases h : k' = k
    · subst h
      simp [List.mem_cons]
    · rw [if_neg h]
      simp only [List.map_cons, ih]
      by_cases hk : k ∈ rest.map Prod.fst
      · rw [if_pos hk, if_pos (List.mem_cons_of_mem k' hk)]
      · have hnotin : k ∉ (k' :: rest.map Prod.fst) := by
          intro hc
          rcases List.mem_cons.mp hc with hc | hc
          · exact h hc.symm
          · exact hk hc
        rw [if_neg hk, if_neg hnotin]
        simp

theorem bucketAdd_keys_nodup {m : List (Str × List (Nat × Str))} {k : Str}
    {v : Nat × Str} (h : (m.map Prod.fst).Nodup) :
    ((bucketAdd m k v).map Prod.fst).Nodup := by
  rw [bucketAdd_keys]
  by_cases hk : k ∈ m.map Prod.fst
  · rw [if_pos hk]; exact h
  · rw [if_neg hk]
    refine h.append (List.nodup_singleton k) ?_
    intro a ha ha'
    exact hk (List.mem_singleton.mp ha' ▸ ha)

theorem bucketsFold_keys_nodup :
    ∀ (L : List (Str × (Nat × Str))) (m0 : List (Str × List (Nat × Str))),
      (m0.map Prod.fst).Nodup →
      (((L.foldl (fun m kv => bucketAdd m kv.1 kv.2) m0)).map
        Prod.fst).Nodup := by
  intro L
  induction L with
  | nil => intro m0 h; simpa using h
  | cons kv L ih =>
    intro m0 h
    simp only [List.foldl_cons]
    exact ih _ (bucketAdd_keys_nodup h)

theorem alookup_bucketAdd_self :
    ∀ (m : List (Str × List (Nat × Str))) (k : Str) (v : Nat × Str),
      alookup k (bucketAdd m k v) = some ((alookup k m).getD [] ++ [v]) := by
  intro m k v
  induction m with
  | nil => simp [bucketAdd, alookup]
  | cons kv rest ih =>
    obtain ⟨k', vs⟩ := kv
    unfold bucketAdd
    by_cases h : k' = k
    · rw [if_pos h]
      unfold alookup
      rw [if_pos h, if_pos h]
      simp
    · rw [if_neg h]
      unfold alookup
      rw [if_neg h, if_neg h]
      exact ih

theorem alookup_bucketAdd_other {k0 k : Str} (h : k0 ≠ k) :
    ∀ (m : List (Str × List (Nat × Str))) (v : Nat × Str),
      alookup k0 (bucketAdd m k v) = alookup k0 m := by
  intro m v
  induction m with
  | nil =>
    simp only [bucketAdd, alookup]
    rw [if_neg (fun hc => h hc.symm)]
  | cons kv rest ih =>
    obtain ⟨k', vs⟩ := kv
    unfold bucketAdd
    by_cases hk' : k' = k
    · rw [if_pos hk']
      unfold alookup
      have hne : k' ≠ k0 := fun hc => h (hc ▸ hk')
      rw [if_neg hne, if_neg hne]
    · rw [if_neg hk']
      unfold alookup
      by_cases hk0 : k' = k0
      · rw [if_pos hk0, if_pos hk0]
      · rw [if_neg hk0, if_neg hk0]
        exact ih

theorem keys_flatMap_alookup :
    ∀ m : List (Str × List (Nat × Str)), (m.map Prod.fst).Nodup →
      (m.map Prod.fst).flatMap (fun k => (alookup k m).getD []) =
        m.flatMap Prod.snd := by
  intro m
  induction m with
  | nil => intro _; rfl
  | cons kv rest ih =>
    intro hnd
    obtain ⟨k, vs⟩ := kv
    simp only [List.map_cons, List.flatMap_cons] at hnd ⊢
    rw [List.nodup_cons] at hnd
    obtain ⟨hk, hnd'⟩ := hnd
    have h1 : alookup k ((k, vs) :: rest) = some vs := by
      unfold alookup; rw [if_pos rfl]
    rw [h1]
    simp only [Option.getD_some]
    congr 1
    rw [← ih hnd']
    apply List.flatMap_congr
    intro x hx
    have hxk : k ≠ x := fun hc => hk (hc ▸ hx)
    have h2 : alookup x ((k, vs) :: rest) = alookup x rest := by
      simp only [alookup]
      rw [if_neg hxk]
    rw [h2]

theorem bucketsFold_groups_sorted :
    ∀ (L : List (Str × (Nat × Str))) (m0 : List (Str × List (Nat × Str))),
      L.Pairwise (fun a b => a.2.1 < b.2.1) →
      (∀ k vs, alookup k m0 = some vs →
        vs.Pairwise (fun a b => a.1 < b.1) ∧
          ∀ x ∈ vs, ∀ r ∈ L, x.1 < r.2.1) →
      ∀ k vs,
        alookup k (L.foldl (fun m kv => bucketAdd m kv.1 kv.2) m0) =
          some vs →
        vs.Pairwise (fun a b => a.1 < b.1) := by
  intro L
  induction L with
  | nil => intro m0 _ hinv k vs h; exact (hinv k vs h).1
  | cons r L ih =>
    intro m0 hp hinv
    rw [List.pairwise_cons] at hp
    obtain ⟨hr, hL⟩ := hp
    simp only [List.foldl_cons]
    apply ih _ hL
    intro k vs hvs
    by_cases hk : k = r.1
    · subst hk
      rw [alookup_bucketAdd_self] at hvs
      cases hold : alookup r.1 m0 with
      | none =>
        rw [hold] at hvs
        simp only [Option.getD_none, List.nil_append, Option.some.injEq]
          at hvs
        subst hvs
        refine ⟨List.pairwise_singleton _ _, fun x hx r' hr' => ?_⟩
        rw [List.mem_singleton.mp hx]
        exact hr r' hr'
      | some vs0 =>
        rw [hold] at hvs
        simp only [Option.getD_some, Option.some.injEq] at hvs
        subst hvs
        obtain ⟨hp0, hb0⟩ := hinv r.1 vs0 hold
        constructor
        · rw [List.pairwise_append]
          refine ⟨hp0, List.pairwise_singleton _ _, fun a ha b hb => ?_⟩
          rw [List.mem_singleton.mp hb]
          exact hb0 a ha r (List.mem_cons_self r L)
        · intro x hx r' hr'
          rcases List.mem_append.mp hx with hx' | hx'
          · exact hb0 x hx' r' (List.mem_cons_of_mem r hr')
          · rw [List.mem_singleton.mp hx']
            exact hr r' hr'
    · rw [alookup_bucketAdd_other hk] at hvs
      obtain ⟨hp0, hb0⟩ := hinv k vs hvs
      exact ⟨hp0, fun x hx r' hr' => hb0 x hx r' (List.mem_cons_of_mem r hr')⟩

theorem pairwise_enumFrom {α : Type} (l : List α) :
    ∀ n, (List.enumFrom n l).Pairwise (fun a b => a.1 < b.1) := by
  induction l with
  | nil => intro n; simp
  | cons x xs ih =>
    intro n
    simp only [List.enumFrom]
    rw [List.pairwise_cons]
    refine ⟨fun z hz => ?_, ih (n + 1)⟩
    obtain ⟨i, a⟩ := z
    have h := List.mem_enumFrom hz
    simp only
    omega

theorem pairwise_enum {α : Type} (l : List α) :
    l.enum.Pairwise (fun a b => a.1 < b.1) :=
  pairwise_enumFrom l 0

/-! ## Digit-run lemmas for the normalizer -/

theorem mem_of_getLast?_eq {α : Type} {l : List α} {a : α}
    (h : l.getLast? = some a) : a ∈ l := by
  have h2 := List.getLast?_eq_getElem? l ▸ h
  exact List.getElem?_mem h2

theorem digitRunsAux_no_digit :
    ∀ (b cur : Str), (∀ c ∈ b, isDigitC c = false) →
      digitRunsAux b cur = if cur = [] then [] else [cur.reverse] := by
  intro b
  induction b with
  | nil => intro cur _; rfl
  | cons c cs ih =>
    intro cur hb
    have hc : ¬ isDigitC c = true := by
      rw [hb c (List.mem_cons_self c cs)]; simp
    have hcs : ∀ x ∈ cs, isDigitC x = false :=
      fun x hx => hb x (List.mem_cons_of_mem c hx)
    unfold digitRunsAux
    rw [if_neg hc]
    by_cases hcur : cur = []
    · rw [if_pos hcur, if_pos hcur, ih [] hcs, if_pos rfl]
    · rw [if_neg hcur, if_neg hcur, ih [] hcs, if_pos rfl]

theorem digitRunsAux_digits :
    ∀ (r : Str), (∀ c ∈ r, isDigitC c = true) →
      ∀ (t cur : Str),
        digitRunsAux (r ++ t) cur = digitRunsAux t (r.reverse ++ cur) := by
  intro r
  induction r with
  | nil => intro _ t cur; simp
  | cons c cs ih =>
    intro hr t cur
    have hc : isDigitC c = true := hr c (List.mem_cons_self c cs)
    have hcs : ∀ x ∈ cs, isDigitC x = true :=
      fun x hx => hr x (List.mem_cons_of_mem c hx)
    simp only [List.cons_append]
    simp only [digitRunsAux]
    rw [if_pos hc, ih hcs t (c :: cur), List.reverse_cons, List.append_assoc,
      List.singleton_append]

theorem digitRunsAux_split :
    ∀ (a' : Str) (c : Char), isDigitC c = false →
      ∀ (t cur : Str),
        digitRunsAux ((a' ++ [c]) ++ t) cur =
          digitRunsAux (a' ++ [c]) cur ++ digitRunsAux t [] := by
  intro a'
  induction a' with
  | nil =>
    intro c hc t cur
    have hcn : ¬ isDigitC c = true := by rw [hc]; simp
    simp only [List.nil_append, List.cons_append]
    rw [digitRunsAux_no_digit [c] cur
      (fun x hx => by rw [List.mem_singleton.mp hx]; exact hc)]
    simp only [digitRunsAux]
    rw [if_neg hcn]
    by_cases hcur : cur = []
    · rw [if_pos hcur, if_pos hcur, List.nil_append]
    · rw [if_neg hcur, if_neg hcur, List.singleton_append]
  | cons d a'' ih =>
    intro c hc t cur
    simp only [List.cons_append]
    simp only [digitRunsAux]
    by_cases hd : isDigitC d = true
    · rw [if_pos hd, if_pos hd]
      exact ih c hc t (d :: cur)
    · rw [if_neg hd, if_neg hd]
      by_cases hcur : cur = []
      · rw [if_pos hcur, if_pos hcur]
        exact ih c hc t []
      · rw [if_neg hcur, if_neg hcur, ih c hc t [], List.cons_append]

theorem digitRuns_decomp_last (a r b : Str) (hr : r ≠ [])
    (hrd : ∀ c ∈ r, isDigitC c = true)
    (ha : a = [] ∨ ∃ a' c, a = a' ++ [c] ∧ isDigitC c = false)
    (hb : ∀ c ∈ b, isDigitC c = false) :
    (digitRuns (a ++ r ++ b)).getLast? = some r := by
  have hrb : digitRunsAux (r ++ b) [] = [r] := by
    rw [digitRunsAux_digits r hrd b [],
      digitRunsAux_no_digit b (r.reverse ++ []) hb]
    have hne : r.reverse ++ [] ≠ [] := by
      simp [List.reverse_eq_nil_iff, hr]
    rw [if_neg hne]
    simp
  rcases ha with rfl | ⟨a', c, rfl, hc⟩
  · unfold digitRuns
    rw [List.nil_append, hrb, List.getLast?_singleton]
  · unfold digitRuns
    rw [List.append_assoc, digitRunsAux_split a' c hc (r ++ b) [], hrb]
    exact List.getLast?_concat _

theorem digitRuns_ne_nil :
    ∀ (s cur : Str), ((∃ c ∈ s, isDigitC c = true) ∨ cur ≠ []) →
      digitRunsAux s cur ≠ [] := by
  intro s
  induction s with
  | nil =>
    intro cur h
    rcases h with ⟨c, hc, _⟩ | h
    · exact absurd hc (List.not_mem_nil c)
    · unfold digitRunsAux
      rw [if_neg h]
      simp
  | cons c cs ih =>
    intro cur h
    unfold digitRunsAux
    by_cases hc : isDigitC c = true
    · rw [if_pos hc]
      exact ih (c :: cur) (Or.inr (by simp))
    · rw [if_neg hc]
      by_cases hcur : cur = []
      · rw [if_pos hcur]
        apply ih
        left
        rcases h with ⟨d, hd, hdd⟩ | h'
        · rcases List.mem_cons.mp hd with rfl | hd'
          · exact absurd hdd hc
          · exact ⟨d, hd', hdd⟩
        · exact absurd hcur h'
      · rw [if_neg hcur]
        simp

theorem digitRuns_mem :
    ∀ (s cur r : Str), (∀ c ∈ cur, isDigitC c = true) →
      r ∈ digitRunsAux s cur → r ≠ [] ∧ ∀ c ∈ r, isDigitC c = true := by
  intro s
  induction s with
  | nil =>
    intro cur r hcur hr
    unfold digitRunsAux at hr
    by_cases hc : cur = []
    · rw [if_pos hc] at hr
      exact absurd hr (List.not_mem_nil r)
    · rw [if_neg hc] at hr
      rw [List.mem_singleton] at hr
      subst hr
      exact ⟨by simpa [List.reverse_eq_nil_iff] using hc,
        fun c hcc => hcur c (List.mem_reverse.mp hcc)⟩
  | cons c cs ih =>
    intro cur r hcur hr
    unfold digitRunsAux at hr
    by_cases hc : isDigitC c = true
    · rw [if_pos hc] at hr
      refine ih (c :: cur) r (fun d hd => ?_) hr
      rcases List.mem_cons.mp hd with rfl | h
      · exact hc
      · exact hcur d h
    · rw [if_neg hc] at hr
      by_cases hcur0 : cur = []
      · rw [if_pos hcur0] at hr
        exact ih [] r (by simp) hr
      · rw [if_neg hcur0] at hr
        rcases List.mem_cons.mp hr with rfl | hr'
        · exact ⟨by simpa [List.reverse_eq_nil_iff] using hcur0,
            fun d hd => hcur d (List.mem_reverse.mp hd)⟩
        · exact ih [] r (by simp) hr'

theorem extract_last4_shape (x : Str) :
    (digitRuns x = [] ∧ extract_last_4_digits x = "Unknown".data) ∨
      ((extract_last_4_digits x).length = 4 ∧
        ∀ c ∈ extract_last_4_digits x, isDigitC c = true) := by
  cases hl : (digitRuns x).getLast? with
  | none =>
    left
    have hx : extract_last_4_digits x = "Unknown".data := by
      unfold extract_last_4_digits
      rw [hl]
    exact ⟨List.getLast?_eq_none_iff.mp hl, hx⟩
  | some r =>
    right
    have hx : extract_last_4_digits x =
        if r.length = 4 then r
        else if r.length > 4 then r.drop (r.length - 4)
        else List.replicate (4 - r.length) '0' ++ r := by
      unfold extract_last_4_digits
      rw [hl]
    have hmem : r ∈ digitRuns x := mem_of_getLast?_eq hl
    obtain ⟨hne, hdig⟩ := digitRuns_mem x [] r (by simp) hmem
    rw [hx]
    by_cases h4 : r.length = 4
    · rw [if_pos h4]
      exact ⟨h4, hdig⟩
    · rw [if_neg h4]
      by_cases hgt : r.length > 4
      · rw [if_pos hgt]
        refine ⟨by rw [List.length_drop]; omega, fun c hc => ?_⟩
        exact hdig c (List.drop_subset _ _ hc)
      · rw [if_neg hgt]
        have hpos : 0 < r.length := List.length_pos.mpr hne
        refine ⟨by rw [List.length_append, List.length_replicate]; omega,
          fun c hc => ?_⟩
        rcases List.mem_append.mp hc with hc' | hc'
        · rw [List.eq_of_mem_replicate hc']
          decide
        · exact hdig c hc'

theorem extract_last4_of_digits (d : Str) (h4 : d.length = 4)
    (hd : ∀ c ∈ d, isDigitC c = true) : extract_last_4_digits d = d := by
  have hne : d ≠ [] := by
    intro h
    rw [h] at h4
    simp at h4
  have hruns : digitRuns d = [d] := by
    unfold digitRuns
    have h1 := digitRunsAux_digits d hd [] []
    rw [List.append_nil] at h1
    rw [h1]
    unfold digitRunsAux
    rw [if_neg (by simp [List.reverse_eq_nil_iff, hne] :
      ¬ d.reverse ++ [] = [])]
    simp
  have hx : extract_last_4_digits d =
      if d.length = 4 then d
      else if d.length > 4 then d.drop (d.length - 4)
      else List.replicate (4 - d.length) '0' ++ d := by
    unfold extract_last_4_digits
    rw [hruns, List.getLast?_singleton]
  rw [hx, if_pos h4]

/-- C4: `extract_last_4_digits` takes the last maximal digit run of the
input (characterised here as a decomposition `a ++ r ++ b` where `r` is a
nonempty all-digit block, `a` is empty or ends in a non-digit, and `b` has
no digit) and returns it unchanged at length 4, its last 4 characters when
longer, left-padded with `'0'` when shorter, and `"Unknown"` when the input
has no digit; with the four concrete examples from the specification. -/
theorem c4_normalizer_correct :
    (∀ s : Str, (∀ c ∈ s, isDigitC c = false) →
        extract_last_4_digits s = "Unknown".data) ∧
    (∀ a r b : Str, r ≠ [] → (∀ c ∈ r, isDigitC c = true) →
        (a = [] ∨ ∃ a' c, a = a' ++ [c] ∧ isDigitC c = false) →
        (∀ c ∈ b, isDigitC c = false) →
        extract_last_4_digits (a ++ r ++ b) =
          if r.length = 4 then r
          else if r.length > 4 then r.drop (r.length - 4)
          else List.replicate (4 - r.length) '0' ++ r) ∧
    extract_last_4_digits "5875".data = "5875".data ∧
    extract_last_4_digits "123456".data = "3456".data ∧
    extract_last_4_digits "42".data = "0042".data ∧
    extract_last_4_digits "no digits here".data = "Unknown".data := by
  refine ⟨?_, ?_, by decide, by decide, by decide, by decide⟩
  · intro s hs
    have h1 : digitRuns s = [] := by
      unfold digitRuns
      rw [digitRunsAux_no_digit s [] hs, if_pos rfl]
    unfold extract_last_4_digits
    rw [h1]
    rfl
  · intro a r b hr hrd ha hb
    unfold extract_last_4_digits
    rw [digitRuns_decomp_last a r b hr hrd ha hb]

/-- Witness for C4: the general decomposition clause applied to
`"Apollo " ++ "42" ++ ""` computes the zero-padded key `"0042"`. -/
theorem c4_normalizer_correct_witness :
    extract_last_4_digits "Apollo 42".data = "0042".data := by
  have h := c4_normalizer_correct.2.1 "Apollo ".data "42".data []
    (by decide) (by decide)
    (Or.inr ⟨"Apollo".data, ' ', by decide, by decide⟩) (by decide)
  have heq : "Apollo 42".data = "Apollo ".data ++ "42".data ++ [] := by decide
  rw [heq, h]
  decide

/-- C9: the digit normalizer is idempotent on digit-bearing inputs. -/
theorem c9_normalizer_idempotent (x : Str) (h : ∃ c ∈ x, isDigitC c = true) :
    extract_last_4_digits (extract_last_4_digits x) =
      extract_last_4_digits x := by
  rcases extract_last4_shape x with ⟨hruns, _⟩ | ⟨h4, hd⟩
  · exact absurd hruns (digitRuns_ne_nil x [] (Or.inl h))
  · exact extract_last4_of_digits _ h4 hd

/-- Witness for C9: idempotence at the concrete input `"42"`. -/
theorem c9_normalizer_idempotent_witness :
    extract_last_4_digits (extract_last_4_digits "42".data) =
      extract_last_4_digits "42".data :=
  c9_normalizer_idempotent "42".data ⟨'4', by decide, by decide⟩

/-! ## The garbling detector -/

theorem hasSlashCode_iff :
    ∀ s : Str, hasSlashCode s = true ↔
      ((∃ u v : Str, ∃ d : Char, s = u ++ '/' :: d :: v ∧ isDigitC d = true) ∨
       (∃ u v : Str, ∃ d : Char,
         s = u ++ '/' :: 'i' :: d :: v ∧ isDigitC d = true)) := by
  intro s
  induction s with
  | nil =>
    simp only [hasSlashCode]
    constructor
    · intro h; exact absurd h (by simp)
    · rintro (⟨u, v, d, h, _⟩ | ⟨u, v, d, h, _⟩) <;> exact absurd h (by simp)
  | cons c cs ih =>
    simp only [hasSlashCode]
    constructor
    · intro h
      rw [Bool.or_eq_true] at h
      rcases h with h | h
      · rw [Bool.and_eq_true] at h
        obtain ⟨hc, ht⟩ := h
        have hc' : c = '/' := of_decide_eq_true hc
        subst hc'
        cases cs with
        | nil => simp [slashTail] at ht
        | cons d rest =>
          simp only [slashTail] at ht
          rw [Bool.or_eq_true] at ht
          rcases ht with ht | ht
          · exact Or.inl ⟨[], rest, d, rfl, ht⟩
          · rw [Bool.and_eq_true] at ht
            obtain ⟨hd, hh⟩ := ht
            have hd' : d = 'i' := of_decide_eq_true hd
            subst hd'
            cases rest with
            | nil => simp [headDigit] at hh
            | cons e rest2 =>
              simp only [headDigit] at hh
              exact Or.inr ⟨[], rest2, e, rfl, hh⟩
      · rcases ih.mp h with ⟨u, v, d, heq, hd⟩ | ⟨u, v, d, heq, hd⟩
        · exact Or.inl ⟨c :: u, v, d, by rw [heq]; rfl, hd⟩
        · exact Or.inr ⟨c :: u, v, d, by rw [heq]; rfl, hd⟩
    · intro h
      rw [Bool.or_eq_true]
      rcases h with ⟨u, v, d, heq, hd⟩ | ⟨u, v, d, heq, hd⟩
      · cases u with
        | nil =>
          simp only [List.nil_append, List.cons_eq_cons] at heq
          obtain ⟨rfl, rfl⟩ := heq
          left
          simp [slashTail, hd]
        | cons e u' =>
          simp only [List.cons_append, List.cons_eq_cons] at heq
          obtain ⟨rfl, h2⟩ := heq
          exact Or.inr (ih.mpr (Or.inl ⟨u', v, d, h2, hd⟩))
      · cases u with
        | nil =>
          simp only [List.nil_append, List.cons_eq_cons] at heq
          obtain ⟨rfl, rfl⟩ := heq
          left
          simp [slashTail, headDigit, hd]
        | cons e u' =>
          simp only [List.cons_append, List.cons_eq_cons] at heq
          obtain ⟨rfl, h2⟩ := heq
          exact Or.inr (ih.mpr (Or.inr ⟨u', v, d, h2, hd⟩))

/-- C8: `is_text_garbled` is true exactly when the text contains `'/'`
followed by a digit, or `'/' 'i'` followed by a digit, or is nonempty with
an alphanumeric-or-whitespace fraction strictly below one half; the empty
string is not garbled, and the two concrete examples from the specification
classify as stated. -/
theorem c8_garbling_detector :
    (∀ s : Str, is_text_garbled s = true ↔
      ((∃ u v : Str, ∃ d : Char, s = u ++ '/' :: d :: v ∧ isDigitC d = true) ∨
       (∃ u v : Str, ∃ d : Char,
         s = u ++ '/' :: 'i' :: d :: v ∧ isDigitC d = true) ∨
       (0 < s.length ∧ 2 * readableCount s < s.length))) ∧
    is_text_garbled [] = false ∧
    is_text_garbled "/0/1/2/3 garbage".data = true ∧
    is_text_garbled "Vehicle\nStealth 6509\nFuel Type Diesel".data = false := by
  refine ⟨?_, by decide, by decide, by decide⟩
  intro s
  unfold is_text_garbled
  rw [Bool.or_eq_true, Bool.and_eq_true, decide_eq_true_eq, decide_eq_true_eq,
    hasSlashCode_iff]
  exact or_assoc

/-! ## The strategy-1/strategy-2 line scan -/

theorem scanAux_first_m1 :
    ∀ (lines : List Str) (p? : Option Str) (i : Nat) (r : Str × Str),
      m1At p? lines i = some r →
      (∀ j, j < i → m1At p? lines j = none ∧ m2At p? lines j = none) →
      scanAux p? lines = some r := by
  intro lines
  induction lines with
  | nil =>
    intro p? i r h _
    cases i <;> exact absurd h (by simp [m1At])
  | cons l rest ih =>
    intro p? i r h hj
    cases i with
    | zero =>
      simp only [m1At] at h
      unfold scanAux
      rw [h]
    | succ i' =>
      obtain ⟨h1, h2⟩ := hj 0 (Nat.succ_pos i')
      simp only [m1At] at h1 h
      simp only [m2At] at h2
      unfold scanAux
      rw [h1, h2]
      exact ih (some l) i' r h (fun j hjj => hj (j + 1) (Nat.succ_lt_succ hjj))

/-- C5 counterexample: in the four-line text below, strategy 1 matches at
line index 3 (the `"Vehicle Fuel Type"` line, preceded by
`"Apollo 1234 diesel"`), yet `extract_vehicle_vin` does not return strategy
1's result — the strategy-2 match at the earlier line index 1 wins. -/
theorem c5_first_match_counterexample :
    m1At none
        (splitLines
          "Stealth 6509\nVehicle\nApollo 1234 diesel\nVehicle Fuel Type".data)
        3 =
      some ("1234".data, "Apollo 1234".data) ∧
    extract_vehicle_vin
        "Stealth 6509\nVehicle\nApollo 1234 diesel\nVehicle Fuel Type".data ≠
      ("1234".data, "Apollo 1234".data) := by
  exact ⟨by decide, by decide⟩

/-- C5 (amended): strategies 1 and 2 are checked together in one pass over
the lines, strategy 1 first on each line; whenever strategy 1 matches at a
line index `i` and neither strategy 1 nor strategy 2 matched at any earlier
line, `extract_vehicle_vin` returns strategy 1's `(key, label)` — in
particular strategy 1 then takes precedence over a strategy-2 match on the
same or a later line and over strategies 3–5 anywhere. -/
theorem c5_line_scan_priority (text : Str) (i : Nat) (r : Str × Str)
    (h : m1At none (splitLines text) i = some r)
    (hprev : ∀ j, j < i → m1At none (splitLines text) j = none ∧
      m2At none (splitLines text) j = none) :
    extract_vehicle_vin text = r := by
  have hs := scanAux_first_m1 (splitLines text) none i r h hprev
  unfold extract_vehicle_vin
  rw [hs]

/-- Witness for C5 (amended): strategy 1 matching at line 1 with nothing
before it determines the extractor's result. -/
theorem c5_line_scan_priority_witness :
    extract_vehicle_vin "Apollo 1234 diesel\nVehicle Fuel Type".data =
      ("1234".data, "Apollo 1234".data) :=
  c5_line_scan_priority "Apollo 1234 diesel\nVehicle Fuel Type".data 1
    ("1234".data, "Apollo 1234".data) (by decide)
    (fun j hj => by
      have hj0 : j = 0 := Nat.lt_one_iff.mp hj
      subst hj0
      exact ⟨by decide, by decide⟩)

/-! ## The extractor invariant: every returned key is 4 digits or "Unknown"
and the label is "Unknown" exactly when the key is -/

theorem append_space_ne_unknown (x y : Str) :
    x ++ ' ' :: y ≠ "Unknown".data := by
  intro h
  have hsp : (' ' : Char) ∈ "Unknown".data := by
    rw [← h]
    exact List.mem_append.mpr (Or.inr (List.mem_cons_self ' ' y))
  exact absurd hsp (by decide)

theorem eatD4_spec {s d r : Str} (h : eatD4 s = some (d, r)) :
    d.length = 4 ∧ ∀ c ∈ d, isDigitC c = true := by
  unfold eatD4 at h
  simp only at h
  by_cases hc : ((s.take 4).length = 4 && (s.take 4).all isDigitC) = true
  · rw [if_pos hc] at h
    simp only [Option.some.injEq, Prod.mk.injEq] at h
    obtain ⟨hd, -⟩ := h
    subst hd
    rw [Bool.and_eq_true] at hc
    exact ⟨by simpa using hc.1, fun c hcc => List.all_eq_true.mp hc.2 c hcc⟩
  · rw [if_neg hc] at h
    exact absurd h (by simp)

theorem wsD4Fuel_digits {s d : Str} (h : wsD4Fuel s = some d) :
    d.length = 4 ∧ ∀ c ∈ d, isDigitC c = true := by
  unfold wsD4Fuel at h
  cases h1 : eatWs1 s with
  | none => rw [h1] at h; exact absurd h (by simp)
  | some p1 =>
    obtain ⟨w1, r1⟩ := p1
    rw [h1] at h
    simp only at h
    cases h2 : eatD4 r1 with
    | none => rw [h2] at h; exact absurd h (by simp)
    | some p2 =>
      obtain ⟨d2, r2⟩ := p2
      rw [h2] at h
      simp only at h
      cases h3 : eatWs1 r2 with
      | none => rw [h3] at h; exact absurd h (by simp)
      | some p3 =>
        obtain ⟨w3, r3⟩ := p3
        rw [h3] at h
        simp only at h
        by_cases h4 : (isPrefixCI "diesel".data r3 || isPrefixCI "gas".data r3
            || isPrefixCI "gasoline".data r3) = true
        · rw [if_pos h4] at h
          simp only [Option.some.injEq] at h
          subst h
          exact eatD4_spec h2
        · rw [if_neg h4] at h
          exact absurd h (by simp)

theorem r1SearchAux_digits :
    ∀ (s acc g d : Str), r1SearchAux acc s = some (g, d) →
      d.length = 4 ∧ ∀ c ∈ d, isDigitC c = true := by
  intro s
  induction s with
  | nil => intro acc g d h; exact absurd h (by simp [r1SearchAux])
  | cons c rest ih =>
    intro acc g d h
    unfold r1SearchAux at h
    by_cases hc : c = '\n'
    · rw [if_pos hc] at h
      exact ih [] g d h
    · rw [if_neg hc] at h
      simp only at h
      cases hw : wsD4Fuel rest with
      | some d' =>
        rw [hw] at h
        simp only [Option.some.injEq, Prod.mk.injEq] at h
        obtain ⟨-, rfl⟩ := h
        exact wsD4Fuel_digits hw
      | none =>
        rw [hw] at h
        exact ih (acc ++ [c]) g d h

theorem extract_last4_ne_unknown {name : Str}
    (h : extract_last_4_digits name ≠ "Unknown".data) :
    (extract_last_4_digits name).length = 4 ∧
      ∀ c ∈ extract_last_4_digits name, isDigitC c = true := by
  rcases extract_last4_shape name with ⟨-, hu⟩ | hgood
  · exact absurd hu h
  · exact hgood

theorem m1_spec {p? : Option Str} {line : Str} {k lab : Str}
    (h : m1 p? line = some (k, lab)) :
    (k.length = 4 ∧ ∀ c ∈ k, isDigitC c = true) ∧ lab ≠ "Unknown".data := by
  unfold m1 at h
  by_cases hc : (strContains (pyStrip line) "Vehicle".data &&
      strContains (pyStrip line) "Fuel Type".data) = true
  · rw [if_pos hc] at h
    cases p? with
    | none => exact absurd h (by simp)
    | some p =>
      simp only at h
      cases hr : r1Search (pyStrip p) with
      | none => rw [hr] at h; exact absurd h (by simp)
      | some gp =>
        obtain ⟨g1, d4⟩ := gp
        rw [hr] at h
        simp only [Option.some.injEq, Prod.mk.injEq] at h
        obtain ⟨h5, h6⟩ := h
        subst h5
        subst h6
        exact ⟨r1SearchAux_digits (pyStrip p) [] g1 d4 hr,
          append_space_ne_unknown (pyStrip g1) d4⟩
  · rw [if_neg hc] at h
    exact absurd h (by simp)

theorem m2_spec {p? : Option Str} {line : Str} {k lab : Str}
    (h : m2 p? line = some (k, lab)) :
    (k.length = 4 ∧ ∀ c ∈ k, isDigitC c = true) ∧ lab ≠ "Unknown".data := by
  unfold m2 at h
  by_cases hc : pyStrip line = "Vehicle".data
  · rw [if_pos hc] at h
    cases p? with
    | none => exact absurd h (by simp)
    | some p =>
      simp only at h
      by_cases hname : (pyStrip p ≠ [] && pyStrip p ≠ [' ']) = true
      · rw [if_pos hname] at h
        by_cases hv : extract_last_4_digits (pyStrip p) ≠ "Unknown".data
        · rw [if_pos hv] at h
          simp only [Option.some.injEq, Prod.mk.injEq] at h
          obtain ⟨rfl, rfl⟩ := h
          refine ⟨extract_last4_ne_unknown hv, fun hu => ?_⟩
          rw [hu] at hv
          exact hv (by decide)
        · rw [if_neg hv] at h
          exact absurd h (by simp)
      · rw [if_neg hname] at h
        exact absurd h (by simp)
  · rw [if_neg hc] at h
    exact absurd h (by simp)

theorem scanAux_spec :
    ∀ (lines : List Str) (p? : Option Str) (k lab : Str),
      scanAux p? lines = some (k, lab) →
      (k.length = 4 ∧ ∀ c ∈ k, isDigitC c = true) ∧
        lab ≠ "Unknown".data := by
  intro lines
  induction lines with
  | nil => intro p? k lab h; exact absurd h (by simp [scanAux])
  | cons l rest ih =>
    intro p? k lab h
    unfold scanAux at h
    cases h1 : m1 p? l with
    | some r =>
      rw [h1] at h
      simp only [Option.some.injEq] at h
      subst h
      exact m1_spec h1
    | none =>
      rw [h1] at h
      simp only at h
      cases h2 : m2 p? l with
      | some r =>
        rw [h2] at h
        simp only [Option.some.injEq] at h
        subst h
        exact m2_spec h2
      | none =>
        rw [h2] at h
        exact ih (some l) k lab h

theorem anyTextGo_digits :
    ∀ (s : Str) (c0 : Char) (acc g d : Str),
      anyTextGo c0 acc s = some (g, d) →
      d.length = 4 ∧ ∀ c ∈ d, isDigitC c = true := by
  intro s
  induction s with
  | nil => intro c0 acc g d h; exact absurd h (by simp [anyTextGo])
  | cons c rest ih =>
    intro c0 acc g d h
    unfold anyTextGo at h
    by_cases hc : (isAlphaC c || isPySpace c) = true
    · rw [if_pos hc] at h
      simp only at h
      cases hw : wsD4Fuel rest with
      | some d' =>
        rw [hw] at h
        simp only [Option.some.injEq, Prod.mk.injEq] at h
        obtain ⟨-, rfl⟩ := h
        exact wsD4Fuel_digits hw
      | none =>
        rw [hw] at h
        exact ih c0 (acc ++ [c]) g d h
    · rw [if_neg hc] at h
      exact absurd h (by simp)

theorem anyTextSearch_digits :
    ∀ (s g d : Str), anyTextSearch s = some (g, d) →
      d.length = 4 ∧ ∀ c ∈ d, isDigitC c = true := by
  intro s
  induction s with
  | nil => intro g d h; exact absurd h (by simp [anyTextSearch])
  | cons c rest ih =>
    intro g d h
    unfold anyTextSearch at h
    by_cases hc : isAlphaC c = true
    · rw [if_pos hc] at h
      cases hg : anyTextGo c [] rest with
      | some r =>
        rw [hg] at h
        simp only [Option.some.injEq] at h
        subst h
        exact anyTextGo_digits rest c [] g d hg
      | none =>
        rw [hg] at h
        exact ih g d h
    · rw [if_neg hc] at h
      exact ih g d h

theorem reSearch_spec {α : Type} {f : Str → Option α} {P : α → Prop}
    (hf : ∀ t x, f t = some x → P x) :
    ∀ (s : Str) (x : α), reSearch f s = some x → P x := by
  intro s
  induction s with
  | nil => intro x h; exact hf [] x h
  | cons c rest ih =>
    intro x h
    unfold reSearch at h
    cases hfs : f (c :: rest) with
    | some r =>
      rw [hfs] at h
      simp only [Option.some.injEq] at h
      subst h
      exact hf _ _ hfs
    | none =>
      rw [hfs] at h
      exact ih x h

theorem p4Tail_digits {s d : Str} (h : p4Tail s = some d) :
    d.length = 4 ∧ ∀ c ∈ d, isDigitC c = true := by
  unfold p4Tail at h
  cases h1 : eatWs1 s with
  | none => rw [h1] at h; exact absurd h (by simp)
  | some p1 =>
    obtain ⟨w1, r1⟩ := p1
    rw [h1] at h
    simp only at h
    rw [List.span_eq_take_drop, List.span_eq_take_drop] at h
    simp only at h
    cases h2 : eatD4 ((r1.dropWhile isAlphaC).dropWhile isPySpace) with
    | none => rw [h2] at h; exact absurd h (by simp)
    | some p2 =>
      obtain ⟨d2, r2⟩ := p2
      rw [h2] at h
      simp only [Option.some.injEq] at h
      subst h
      exact eatD4_spec h2

theorem p4cTail_digits {s d : Str} (h : p4cTail s = some d) :
    d.length = 4 ∧ ∀ c ∈ d, isDigitC c = true := by
  unfold p4cTail at h
  rw [List.span_eq_take_drop] at h
  simp only at h
  by_cases hrun : s.takeWhile isDigitC = []
  · rw [if_pos hrun] at h
    exact absurd h (by simp)
  · rw [if_neg hrun] at h
    rw [List.span_eq_take_drop] at h
    simp only at h
    cases h2 : eatD4 ((s.dropWhile isDigitC).dropWhile isPySpace) with
    | some p2 =>
      obtain ⟨d2, r2⟩ := p2
      rw [h2] at h
      simp only [Option.some.injEq] at h
      subst h
      exact eatD4_spec h2
    | none =>
      rw [h2] at h
      by_cases h5 : 5 ≤ (s.takeWhile isDigitC).length
      · rw [if_pos h5] at h
        simp only [Option.some.injEq] at h
        subst h
        constructor
        · rw [List.length_drop]
          omega
        · intro c hc
          exact List.mem_takeWhile_imp (List.drop_subset _ _ hc)
      · rw [if_neg h5] at h
        exact absurd h (by simp)

theorem p4aAt_digits :
    ∀ (s d : Str), p4aAt s = some d →
      d.length = 4 ∧ ∀ c ∈ d, isDigitC c = true := by
  intro s d h
  unfold p4aAt at h
  cases h1 : eatLitCI "venicle".data s with
  | none => rw [h1] at h; exact absurd h (by simp)
  | some r1 =>
    rw [h1] at h
    simp only at h
    cases h2 : eatCls (fun c => c = 'l' || c = 'L' || c = 'i' || c = 'I') r1
      with
    | none => rw [h2] at h; exact absurd h (by simp)
    | some r2 =>
      rw [h2] at h
      simp only at h
      cases h3 : eatCls (fun c => c = 'd' || c = 'D') r2 with
      | none => rw [h3] at h; exact absurd h (by simp)
      | some r3 =>
        rw [h3] at h
        exact p4Tail_digits h

theorem p4bAt_digits :
    ∀ (s d : Str), p4bAt s = some d →
      d.length = 4 ∧ ∀ c ∈ d, isDigitC c = true := by
  intro s d h
  unfold p4bAt at h
  cases h1 : eatLitCI "vehicle".data s with
  | none => rw [h1] at h; exact absurd h (by simp)
  | some r1 =>
    rw [h1] at h
    simp only at h
    cases h2 : eatCls (fun c => c = 'l' || c = 'L' || c = 'i' || c = 'I') r1
      with
    | none => rw [h2] at h; exact absurd h (by simp)
    | some r2 =>
      rw [h2] at h
      simp only at h
      cases h3 : eatCls (fun c => c = 'd' || c = 'D') r2 with
      | none => rw [h3] at h; exact absurd h (by simp)
      | some r3 =>
        rw [h3] at h
        exact p4Tail_digits h

theorem p4cAt_digits :
    ∀ (s d : Str), p4cAt s = some d →
      d.length = 4 ∧ ∀ c ∈ d, isDigitC c = true := by
  intro s d h
  unfold p4cAt at h
  cases h1 : eatLitCI "INVOICE".data s with
  | none => rw [h1] at h; exact absurd h (by simp)
  | some r1 =>
    rw [h1] at h
    simp only at h
    cases h2 : eatCls (fun c => c = '#' || c = 'H' || c = 'h') r1 with
    | none => rw [h2] at h; exact absurd h (by simp)
    | some r2 =>
      rw [h2] at h
      simp only at h
      cases h3 : eatWs1 r2 with
      | none => rw [h3] at h; exact absurd h (by simp)
      | some p3 =>
        obtain ⟨w3, r3⟩ := p3
        rw [h3] at h
        exact p4cTail_digits h

theorem method4_spec {text k lab : Str}
    (h : method4 text = some (k, lab)) :
    (k.length = 4 ∧ ∀ c ∈ k, isDigitC c = true) ∧ lab ≠ "Unknown".data := by
  have hlab : ∀ d : Str, "Vehicle ".data ++ d ≠ "Unknown".data := by
    intro d hu
    have : "Vehicle".data ++ ' ' :: d = "Unknown".data := hu
    exact append_space_ne_unknown _ _ this
  unfold method4 at h
  cases h1 : reSearch p4aAt text with
  | some d4 =>
    rw [h1] at h
    simp only [Option.some.injEq, Prod.mk.injEq] at h
    obtain ⟨h5, h6⟩ := h
    subst h5
    subst h6
    exact ⟨reSearch_spec p4aAt_digits text _ h1, hlab _⟩
  | none =>
    rw [h1] at h
    simp only at h
    cases h2 : reSearch p4bAt text with
    | some d4 =>
      rw [h2] at h
      simp only [Option.some.injEq, Prod.mk.injEq] at h
      obtain ⟨h5, h6⟩ := h
      subst h5
      subst h6
      exact ⟨reSearch_spec p4bAt_digits text _ h2, hlab _⟩
    | none =>
      rw [h2] at h
      simp only at h
      cases h3 : reSearch p4cAt text with
      | some d4 =>
        rw [h3] at h
        simp only [Option.some.injEq, Prod.mk.injEq] at h
        obtain ⟨h5, h6⟩ := h
        subst h5
        subst h6
        exact ⟨reSearch_spec p4cAt_digits text _ h3, hlab _⟩
      | none =>
        rw [h3] at h
        exact absurd h (by simp)

theorem tryPattern3_spec {pat : Str → Option (Str × Str)} {text k lab : Str}
    (h : tryPattern3 pat text = some (k, lab)) :
    (k.length = 4 ∧ ∀ c ∈ k, isDigitC c = true) ∧ lab ≠ "Unknown".data := by
  unfold tryPattern3 at h
  cases h1 : reSearch pat text with
  | none => rw [h1] at h; exact absurd h (by simp)
  | some p =>
    obtain ⟨g0, rest⟩ := p
    rw [h1] at h
    simp only at h
    by_cases hv : extract_last_4_digits (pyStrip g0) ≠ "Unknown".data
    · rw [if_pos hv] at h
      simp only [Option.some.injEq, Prod.mk.injEq] at h
      obtain ⟨h5, h6⟩ := h
      subst h5
      subst h6
      refine ⟨extract_last4_ne_unknown hv, fun hu => ?_⟩
      rw [hu] at hv
      exact hv (by decide)
    · rw [if_neg hv] at h
      exact absurd h (by simp)

theorem method3_spec {text k lab : Str} (h : method3 text = some (k, lab)) :
    (k.length = 4 ∧ ∀ c ∈ k, isDigitC c = true) ∧ lab ≠ "Unknown".data := by
  unfold method3 at h
  cases h1 : tryPattern3 p3aAt text with
  | some r =>
    rw [h1] at h
    simp only [Option.some.injEq] at h
    subst h
    exact tryPattern3_spec h1
  | none =>
    rw [h1] at h
    simp only at h
    exact tryPattern3_spec h

/-- C10: for every page text, `extract_vehicle_vin` returns a key that is
either the sentinel `"Unknown"` or exactly 4 digit characters, and the key
is `"Unknown"` exactly when the label is `"Unknown"` — the invariant that
makes lexicographic comparison of non-`"Unknown"` keys coincide with
numeric comparison in the grouping engine. -/
theorem c10_key_label_invariant (text : Str) :
    ((extract_vehicle_vin text).1 = "Unknown".data ∨
      ((extract_vehicle_vin text).1.length = 4 ∧
        ∀ c ∈ (extract_vehicle_vin text).1, isDigitC c = true)) ∧
    ((extract_vehicle_vin text).1 = "Unknown".data ↔
      (extract_vehicle_vin text).2 = "Unknown".data) := by
  have key_ne : ∀ k : Str, k.length = 4 → k ≠ "Unknown".data := by
    intro k h4 hu
    rw [hu] at h4
    exact absurd h4 (by decide)
  have build : ∀ k lab : Str,
      (k.length = 4 ∧ ∀ c ∈ k, isDigitC c = true) → lab ≠ "Unknown".data →
      extract_vehicle_vin text = (k, lab) →
      ((extract_vehicle_vin text).1 = "Unknown".data ∨
        ((extract_vehicle_vin text).1.length = 4 ∧
          ∀ c ∈ (extract_vehicle_vin text).1, isDigitC c = true)) ∧
      ((extract_vehicle_vin text).1 = "Unknown".data ↔
        (extract_vehicle_vin text).2 = "Unknown".data) := by
    intro k lab hk hlab heq
    rw [heq]
    exact ⟨Or.inr hk, iff_of_false (key_ne k hk.1) hlab⟩
  cases h1 : scanAux none (splitLines text) with
  | some r =>
    obtain ⟨k, lab⟩ := r
    obtain ⟨hk, hlab⟩ := scanAux_spec (splitLines text) none k lab h1
    refine build k lab hk hlab ?_
    unfold extract_vehicle_vin
    rw [h1]
  | none =>
    cases h2 : anyTextSearch text with
    | some p =>
      obtain ⟨g1, d4⟩ := p
      obtain ⟨h4, hd⟩ := anyTextSearch_digits text g1 d4 h2
      refine build d4 (pyStrip g1 ++ ' ' :: d4) ⟨h4, hd⟩
        (append_space_ne_unknown _ _) ?_
      unfold extract_vehicle_vin
      rw [h1, h2]
    | none =>
      cases h3 : method3 text with
      | some r =>
        obtain ⟨k, lab⟩ := r
        obtain ⟨hk, hlab⟩ := method3_spec h3
        refine build k lab hk hlab ?_
        unfold extract_vehicle_vin
        rw [h1, h2, h3]
      | none =>
        cases h4 : method4 text with
        | some r =>
          obtain ⟨k, lab⟩ := r
          obtain ⟨hk, hlab⟩ := method4_spec h4
          refine build k lab hk hlab ?_
          unfold extract_vehicle_vin
          rw [h1, h2, h3, h4]
        | none =>
          have heq : extract_vehicle_vin text =
              ("Unknown".data, "Unknown".data) := by
            unfold extract_vehicle_vin
            rw [h1, h2, h3, h4]
          rw [heq]
          simp

/-! ## Pipeline facts -/

theorem pageRecords_pairwise (env : DocEnv) (needs_ocr : Bool) :
    (pageRecords env needs_ocr).Pairwise (fun a b => a.2.1 < b.2.1) := by
  unfold pageRecords
  refine List.Pairwise.map (pageEntry env needs_ocr) ?_
    (pairwise_enum env.pages)
  intro a b hab
  simpa [pageEntry] using hab

theorem bucketsOf_keys_nodup (env : DocEnv) (needs_ocr : Bool) :
    ((bucketsOf env needs_ocr).map Prod.fst).Nodup := by
  unfold bucketsOf
  exact bucketsFold_keys_nodup (pageRecords env needs_ocr) [] (by simp)

theorem bucketsOf_groups_sorted (env : DocEnv) (needs_ocr : Bool) :
    ∀ k vs, alookup k (bucketsOf env needs_ocr) = some vs →
      vs.Pairwise (fun a b => a.1 < b.1) := by
  unfold bucketsOf
  exact bucketsFold_groups_sorted (pageRecords env needs_ocr) []
    (pageRecords_pairwise env needs_ocr)
    (fun k vs h => absurd h (by simp [alookup]))

theorem sortedVinsOf_pairwise (env : DocEnv) (needs_ocr : Bool) :
    (sortedVinsOf env needs_ocr).Pairwise
      (fun a b => sortKeyLe a b = true) :=
  pySorted_pairwise sortKeyLe_total sortKeyLe_trans _

theorem sortedVinsOf_nodup (env : DocEnv) (needs_ocr : Bool) :
    (sortedVinsOf env needs_ocr).Nodup :=
  (pySorted_perm sortKeyLe _).nodup_iff.mpr (bucketsOf_keys_nodup env needs_ocr)

/-- C3: within every vehicle group of the output plan, member pages appear
in strictly ascending source-index order, whatever the bucket contents
were. -/
theorem c3_intra_group_order (env : DocEnv) (needs_ocr : Bool) (vin : Str) :
    (groupPages env needs_ocr vin).Pairwise (· < ·) := by
  unfold groupPages
  cases hl : alookup vin (bucketsOf env needs_ocr) with
  | none =>
    exact List.Pairwise.nil
  | some vs =>
    simp only [Option.getD_some]
    have hvs := bucketsOf_groups_sorted env needs_ocr vin vs hl
    have hfst : (vs.map Prod.fst).Pairwise (· < ·) :=
      List.pairwise_map.mpr hvs
    have hnd : (vs.map Prod.fst).Nodup :=
      hfst.imp (fun h => Nat.ne_of_lt h)
    have hperm :
        (pySorted (fun x y => decide (x.1 ≤ y.1)) vs).Perm vs :=
      pySorted_perm _ vs
    have hnd2 :
        ((pySorted (fun x y => decide (x.1 ≤ y.1)) vs).map
          Prod.fst).Nodup :=
      ((hperm.map Prod.fst).nodup_iff).mpr hnd
    have hsorted :
        (pySorted (fun x y : Nat × Str => decide (x.1 ≤ y.1)) vs).Pairwise
          (fun a b => decide (a.1 ≤ b.1) = true) := by
      refine pySorted_pairwise ?_ ?_ vs
      · intro a b
        rcases Nat.le_total a.1 b.1 with h | h
        · left; simpa using h
        · right; simpa using h
      · intro a b c h1 h2
        simp only [decide_eq_true_eq] at h1 h2 ⊢
        omega
    have hle :
        ((pySorted (fun x y => decide (x.1 ≤ y.1)) vs).map
          Prod.fst).Pairwise (· ≤ ·) :=
      List.pairwise_map.mpr (hsorted.imp (fun h => by simpa using h))
    exact (hle.and hnd2).imp (fun h => lt_of_le_of_ne h.1 h.2)

/-- C2: groups are ordered by the two-tier comparator — for non-"Unknown"
keys `A`, `B` of the same plan with `A` lexicographically below `B`, the
output page order is `… ++ (A's group) ++ … ++ (B's group) ++ …`, so every
page of `A`'s group precedes every page of `B`'s group; and the "Unknown"
group, when present, is the last group. -/
theorem c2_group_ordering :
    (∀ (env : DocEnv) (needs_ocr : Bool) (A B : Str),
      A ∈ sortedVinsOf env needs_ocr → B ∈ sortedVinsOf env needs_ocr →
      A ≠ "Unknown".data → B ≠ "Unknown".data → strLt A B = true →
      ∃ pre mid post : List Nat,
        outputOrder env needs_ocr =
          pre ++ groupPages env needs_ocr A ++ mid ++
            groupPages env needs_ocr B ++ post) ∧
    (∀ (env : DocEnv) (needs_ocr : Bool),
      "Unknown".data ∈ sortedVinsOf env needs_ocr →
      ∃ l', sortedVinsOf env needs_ocr = l' ++ ["Unknown".data] ∧
        "Unknown".data ∉ l') := by
  constructor
  · intro env n A B hA hB hAu hBu hlt
    obtain ⟨l1, l2, l3, hsplit⟩ :=
      pairwise_mem_split (sortedVinsOf_pairwise env n) hA hB
        (strLt_ne hlt) (sortKeyLe_false_of_strLt hAu hBu hlt)
    refine ⟨l1.flatMap (groupPages env n), l2.flatMap (groupPages env n),
      l3.flatMap (groupPages env n), ?_⟩
    unfold outputOrder
    rw [hsplit]
    simp [List.flatMap_append, List.flatMap_cons, List.append_assoc]
  · intro env n hm
    exact pairwise_unknown_last (sortedVinsOf_pairwise env n)
      (sortedVinsOf_nodup env n) hm

/-- Witness for C2: on a concrete 3-page document with keys "0042",
"Unknown", "0007", group "0007" precedes group "0042" in the output order
and the "Unknown" group is last. -/
theorem c2_group_ordering_witness :
    (∃ pre mid post : List Nat,
      outputOrder
          ⟨[Except.ok "Bus 42\nVehicle".data, Except.error (),
            Except.ok "Ford 7\nVehicle".data], fun _ => [], true⟩ false =
        pre ++
          groupPages
            ⟨[Except.ok "Bus 42\nVehicle".data, Except.error (),
              Except.ok "Ford 7\nVehicle".data], fun _ => [], true⟩ false
            "0007".data ++
          mid ++
          groupPages
            ⟨[Except.ok "Bus 42\nVehicle".data, Except.error (),
              Except.ok "Ford 7\nVehicle".data], fun _ => [], true⟩ false
            "0042".data ++
          post) ∧
    (∃ l',
      sortedVinsOf
          ⟨[Except.ok "Bus 42\nVehicle".data, Except.error (),
            Except.ok "Ford 7\nVehicle".data], fun _ => [], true⟩ false =
        l' ++ ["Unknown".data] ∧ "Unknown".data ∉ l') :=
  ⟨c2_group_ordering.1
      ⟨[Except.ok "Bus 42\nVehicle".data, Except.error (),
        Except.ok "Ford 7\nVehicle".data], fun _ => [], true⟩ false
      "0007".data "0042".data (by decide) (by decide) (by decide) (by decide)
      (by decide),
    c2_group_ordering.2
      ⟨[Except.ok "Bus 42\nVehicle".data, Except.error (),
        Except.ok "Ford 7\nVehicle".data], fun _ => [], true⟩ false
      (by decide)⟩

/-- C1: whatever `sort_pdf_by_vehicle` outputs, the page order is a
permutation of the input page indices `0 .. N-1` — every source page
appears exactly once. -/
theorem c1_total_coverage (env : DocEnv) (use_ocr : Bool) (order : List Nat)
    (h : sort_pdf_by_vehicle env use_ocr = .ok order) :
    order.Perm (List.range env.pages.length) := by
  unfold sort_pdf_by_vehicle at h
  cases hd : decideNeedsOcr env use_ocr with
  | error e => rw [hd] at h; exact absurd h (by simp)
  | ok n =>
    rw [hd] at h
    simp only [Except.ok.injEq] at h
    subst h
    unfold outputOrder
    have h1 :
        ((sortedVinsOf env n).flatMap (groupPages env n)).Perm
          (((bucketsOf env n).map Prod.fst).flatMap (groupPages env n)) :=
      (pySorted_perm sortKeyLe _).flatMap_right (groupPages env n)
    have h3 :
        (((bucketsOf env n).map Prod.fst).flatMap (groupPages env n)).Perm
          (((bucketsOf env n).map Prod.fst).flatMap
            (fun k => ((alookup k (bucketsOf env n)).getD []).map
              Prod.fst)) := by
      refine List.Perm.flatMap_left _ (fun k _ => ?_)
      unfold groupPages
      exact (pySorted_perm _ _).map Prod.fst
    have h4 :
        ((bucketsOf env n).map Prod.fst).flatMap
            (fun k => ((alookup k (bucketsOf env n)).getD []).map
              Prod.fst) =
          (((bucketsOf env n).map Prod.fst).flatMap
            (fun k => (alookup k (bucketsOf env n)).getD [])).map
            Prod.fst :=
      (List.map_flatMap Prod.fst _ _).symm
    have h5 :
        ((bucketsOf env n).map Prod.fst).flatMap
            (fun k => (alookup k (bucketsOf env n)).getD []) =
          (bucketsOf env n).flatMap Prod.snd :=
      keys_flatMap_alookup (bucketsOf env n) (bucketsOf_keys_nodup env n)
    have h6 :
        ((bucketsOf env n).flatMap Prod.snd).Perm
          ((pageRecords env n).map Prod.snd) := by
      unfold bucketsOf
      have hf := bucketsFold_flat_perm (pageRecords env n) []
      simpa using hf
    have h7 :
        ((pageRecords env n).map Prod.snd).map Prod.fst =
          List.range env.pages.length := by
      unfold pageRecords
      rw [List.map_map, List.map_map]
      have hcomp :
          ((Prod.fst ∘ Prod.snd) ∘ pageEntry env n) =
            (Prod.fst : Nat × Except Unit Str → Nat) := by
        funext p
        rfl
      rw [hcomp, List.enum_map_fst]
    refine h1.trans (h3.trans ?_)
    rw [h4, h5]
    refine ((h6).map Prod.fst).trans ?_
    rw [h7]

/-- Witness for C1: a concrete 2-page document whose output order `[1, 0]`
is a permutation of `range 2`. -/
theorem c1_total_coverage_witness :
    ([1, 0] : List Nat).Perm (List.range 2) :=
  c1_total_coverage
    ⟨[Except.ok "Bus 42\nVehicle".data, Except.ok "Ford 7\nVehicle".data],
      fun _ => [], true⟩ false [1, 0] (by rfl)

/-- C6 counterexample: with OCR forced by the caller (`use_ocr = true`) and
the OCR capability unavailable, `sort_pdf_by_vehicle` does not abort — it
produces a complete output order (every page degrades to the "Unknown"
group via the empty OCR text), contradicting the claimed configuration
abort for the forced-OCR case. -/
theorem c6_forced_ocr_counterexample :
    (⟨[Except.ok "hello".data], fun _ => [], false⟩ :
        DocEnv).ocrAvailable = false ∧
    sort_pdf_by_vehicle ⟨[Except.ok "hello".data], fun _ => [], false⟩
        true = .ok [0] ∧
    ∀ e, sort_pdf_by_vehicle ⟨[Except.ok "hello".data], fun _ => [], false⟩
        true ≠ .error e := by
  refine ⟨rfl, by rfl, fun e h => ?_⟩
  rw [show sort_pdf_by_vehicle
      ⟨[Except.ok "hello".data], fun _ => [], false⟩ true = .ok [0]
    from rfl] at h
  exact Except.noConfusion h

/-- C6 (amended): the fatal configuration abort happens exactly on the
auto-detection path — when OCR is not forced, the first page's native text
extracts successfully and is flagged garbled, and the OCR capability is
unavailable, `sort_pdf_by_vehicle` returns the configuration error (before
any page extraction); in the forced-OCR and first-page-throws cases no
abort occurs. -/
theorem c6_config_error_on_garbled (env : DocEnv) (t : Str)
    (h0 : env.pages.head? = some (.ok t))
    (hg : is_text_garbled t = true)
    (hocr : env.ocrAvailable = false) :
    sort_pdf_by_vehicle env false = .error .configError := by
  have hd : decideNeedsOcr env false = .error .configError := by
    unfold decideNeedsOcr
    rw [if_neg (by simp : ¬ (false = true)), h0]
    simp only
    rw [if_pos hg, hocr]
    simp
  unfold sort_pdf_by_vehicle
  rw [hd]

/-- Witness for C6 (amended): a one-page document whose native text is
garbled, with OCR unavailable, aborts with the configuration error. -/
theorem c6_config_error_on_garbled_witness :
    sort_pdf_by_vehicle ⟨[Except.ok "/0/1".data], fun _ => [], false⟩
        false = .error .configError :=
  c6_config_error_on_garbled
    ⟨[Except.ok "/0/1".data], fun _ => [], false⟩ "/0/1".data rfl
    (by decide) rfl

/-- C7: on the native-text path (first page extracts un-garbled), a page
whose extraction raises is caught locally — it is recorded with key
`"Unknown"` and label `"Unknown"` and the whole document still produces an
output order; and the specification's 3-page scenario (keys "0042",
throw, "0007") yields output order `[2, 0, 1]`. -/
theorem c7_page_error_isolated :
    (∀ (env : DocEnv) (p : Nat) (t0 : Str),
      env.pages.head? = some (.ok t0) →
      is_text_garbled t0 = false →
      env.pages[p]? = some (.error ()) →
      sort_pdf_by_vehicle env false = .ok (outputOrder env false) ∧
        (pageRecords env false)[p]? =
          some ("Unknown".data, (p, "Unknown".data))) ∧
    sort_pdf_by_vehicle
        ⟨[Except.ok "Bus 42\nVehicle".data, Except.error (),
          Except.ok "Ford 7\nVehicle".data], fun _ => [], true⟩ false =
      .ok [2, 0, 1] := by
  constructor
  · intro env p t0 h0 hg hp
    have hd : decideNeedsOcr env false = .ok false := by
      unfold decideNeedsOcr
      rw [if_neg (by simp : ¬ (false = true)), h0]
      simp only
      rw [if_neg (by simp [hg] : ¬ is_text_garbled t0 = true)]
    constructor
    · unfold sort_pdf_by_vehicle
      rw [hd]
    · unfold pageRecords
      rw [List.getElem?_map, List.getElem?_enum, hp]
      rfl
  · rfl

/-- Witness for C7: the universal clause applied at the concrete 3-page
document, at the throwing page index 1. -/
theorem c7_page_error_isolated_witness :
    sort_pdf_by_vehicle
        ⟨[Except.ok "Bus 42\nVehicle".data, Except.error (),
          Except.ok "Ford 7\nVehicle".data], fun _ => [], true⟩ false =
      .ok (outputOrder
        ⟨[Except.ok "Bus 42\nVehicle".data, Except.error (),
          Except.ok "Ford 7\nVehicle".data], fun _ => [], true⟩ false) ∧
    (pageRecords
        ⟨[Except.ok "Bus 42\nVehicle".data, Except.error (),
          Except.ok "Ford 7\nVehicle".data], fun _ => [], true⟩ false)[1]? =
      some ("Unknown".data, (1, "Unknown".data)) :=
  c7_page_error_isolated.1
    ⟨[Except.ok "Bus 42\nVehicle".data, Except.error (),
      Except.ok "Ford 7\nVehicle".data], fun _ => [], true⟩ 1
    "Bus 42\nVehicle".data rfl (by decide) rfl
